import Mathlib

/-!
# crypto-archive: the archiving pipeline of `main.go`

A shallow embedding of the Kraken archiver: the `crypto_data` table and its
upsert (`InsertCryptoData`), the volume ranking (`GetTopVolumeAssetPairs`), the
per-tick archive pass (`ArchiveData`) and the body of the periodic loop
(`ArchiveDataContinuously`).

Conventions of the embedding.

* `Decimal` stands for the `float64` values the program handles (prices and
  volumes): a number or NaN.  The program only stores, copies and compares
  them, so the numbers are carried by the integers in their order; a comparison
  with NaN is false on either side, as in Go.
* A Go `map[string]T` is carried by the list of its entries.  A `range` loop
  visits the entries in an order the Go runtime chooses; that choice is the
  `MapRange` component of `GoRuntime`.
* The network, the clock and the file system are inputs (`World`).
* A run-time panic (slice index out of range) is a value of its own
  (`Outcome.panic`), distinct from an `error` return.
-/

namespace CryptoArchive

/-! ## The `crypto_data` table -/

/-- A `float64` quantity (price or volume): NaN, or a number, finite or infinite.
The numbers are carried by integers in their order (`0` is `0.0`); that is all the
program can tell of them, as it only copies and compares them. -/
inductive Decimal where
  | num (x : Int) : Decimal
  | nan : Decimal
deriving DecidableEq

instance (n : Nat) : OfNat Decimal n := ⟨.num (Int.ofNat n)⟩

/-- The Go comparison `a < b` on `float64`: false as soon as one side is NaN. -/
def Decimal.lt : Decimal → Decimal → Bool
  | .num x, .num y => decide (x < y)
  | _, _ => false

/-- The Go comparison `a <= b` on `float64`: false as soon as one side is NaN. -/
def Decimal.le : Decimal → Decimal → Bool
  | .num x, .num y => decide (x ≤ y)
  | _, _ => false

instance : LT Decimal := ⟨fun a b => Decimal.lt a b = true⟩

instance : LE Decimal := ⟨fun a b => Decimal.le a b = true⟩

instance (a b : Decimal) : Decidable (a < b) := by
  show Decidable (Decimal.lt a b = true); infer_instance

instance (a b : Decimal) : Decidable (a ≤ b) := by
  show Decidable (Decimal.le a b = true); infer_instance

/-- One row of `crypto_data`.  The surrogate column `id` is left out: no
statement of the program reads or writes it. -/
structure CryptoRow where
  pair : String
  ask_price : Decimal
  bid_price : Decimal
  last_trade_price : Decimal
  volume : Decimal
  high_price : Decimal
  low_price : Decimal
  timestamp : String
deriving DecidableEq

/-- The table `crypto_data`, rows in insertion order. -/
abbrev DB := List CryptoRow

/-- Values of column `pair`, one per row. -/
def pairColumn (db : DB) : List String := db.map CryptoRow.pair

/-- The constraint `pair TEXT UNIQUE` of `InitDB`. -/
def UniquePair (db : DB) : Prop := (pairColumn db).Nodup

instance (db : DB) : Decidable (UniquePair db) := by
  unfold UniquePair; infer_instance

/-- Function `InsertCryptoData`: `INSERT INTO crypto_data (...) VALUES (...)
ON CONFLICT(pair) DO UPDATE SET` the seven value columns from the proposed row.
The conflicting row keeps its place and its `pair`; without a conflict the new
row is appended.  (The branch taken when the driver reports an error only logs.) -/
def InsertCryptoData (db : DB) (pair : String)
    (ask bid lastTrade volume high low : Decimal) (timestamp : String) : DB :=
  match db with
  | [] => [⟨pair, ask, bid, lastTrade, volume, high, low, timestamp⟩]
  | row :: rest =>
    if row.pair = pair then
      { row with
        ask_price := ask, bid_price := bid, last_trade_price := lastTrade,
        volume := volume, high_price := high, low_price := low,
        timestamp := timestamp } :: rest
    else
      row :: InsertCryptoData rest pair ask bid lastTrade volume high low timestamp

/-- The arguments of one `InsertCryptoData` call. -/
structure InsertCall where
  pair : String
  ask : Decimal
  bid : Decimal
  lastTrade : Decimal
  volume : Decimal
  high : Decimal
  low : Decimal
  timestamp : String
deriving DecidableEq

/-- The row whose eight columns are the arguments of the call. -/
def InsertCall.row (c : InsertCall) : CryptoRow :=
  ⟨c.pair, c.ask, c.bid, c.lastTrade, c.volume, c.high, c.low, c.timestamp⟩

/-- Perform one call on the table. -/
def InsertCall.run (db : DB) (c : InsertCall) : DB :=
  InsertCryptoData db c.pair c.ask c.bid c.lastTrade c.volume c.high c.low c.timestamp

/-- Perform a sequence of calls, first to last. -/
def runInserts (db : DB) (calls : List InsertCall) : DB :=
  calls.foldl InsertCall.run db

/-! ## Kraken API values -/

/-- Entry of the `AssetPairs` catalog. -/
structure AssetPair where
  AltName : String
  WSName : String
deriving DecidableEq

/-- Candidate of the ranking: internal name, display name, probed volume. -/
structure PairMapping where
  InternalName : String
  AltName : String
  Volume : Decimal
deriving DecidableEq

/-- Ticker entry; every field is a JSON array of strings. -/
structure TickerInfo where
  Ask : List String
  Bid : List String
  Last : List String
  Volume : List String
  High : List String
  Low : List String
deriving DecidableEq

/-- Envelope of the `Ticker` endpoint; `Result` is a Go map. -/
structure TickerResponse where
  Error : List String
  Result : List (String × TickerInfo)

/-- Envelope of the `AssetPairs` endpoint; `Result` is a Go map. -/
structure AssetPairsResponse where
  Error : List String
  Result : List (String × AssetPair)

/-- What `http.Get` followed by `json.Decode` yields. -/
inductive HttpReply (α : Type) where
  | transportError : HttpReply α
  | undecodable : HttpReply α
  | decoded (body : α) : HttpReply α

/-- How a call ends: a value, a Go `error`, a run-time panic, or the loop bound of
the embedding exhausted (shown below never to happen). -/
inductive Outcome (α : Type) where
  | ok (value : α) : Outcome α
  | error : Outcome α
  | panic : Outcome α
  | outOfFuel : Outcome α
deriving DecidableEq

/-- Wall-clock reading used by `generateCSVFilename`. -/
structure Clock where
  Year : Nat
  Month : Nat
  Day : Nat
  Hour : Nat
  Minute : Nat
deriving DecidableEq

/-- Everything outside the process during one archive cycle. -/
structure World where
  /-- reply to `GET /0/public/AssetPairs` -/
  assetPairs : HttpReply AssetPairsResponse
  /-- reply to the batch ticker request number `n` (from 0) of the ranking probe,
  given its `pair=` parameter -/
  batchTicker : Nat → String → HttpReply TickerResponse
  /-- reply to the `GetTicker` call made for the ranked instrument number `j` -/
  pairTicker : Nat → String → HttpReply TickerResponse
  /-- value of `time.Now().Format(time.RFC3339)` at ranked instrument number `j` -/
  now : Nat → String
  /-- clock reading at export time -/
  clock : Clock
  /-- whether the query, the file creation or a CSV write of the export fails -/
  exportFails : Bool

/-- The parts of the Go runtime and standard library the program relies on. -/
structure GoRuntime where
  /-- value returned by `strconv.ParseFloat(s, 64)`; the program drops the error -/
  ParseFloat : String → Decimal
  /-- outcome of `sort.Slice(x, less)`, `less` read on elements -/
  SortSlice : (PairMapping → PairMapping → Bool) → List PairMapping → List PairMapping
  /-- order in which a `range` loop visits the entries of a map -/
  MapRange : {α : Type} → List (String × α) → List (String × α)

/-- Requirement of package `sort` on a `less` function, which bears on the elements
of the slice being sorted: a transitive ordering in which incomparability is
transitive too.  A `>` on `float64` fails it as soon as the slice holds a NaN
next to two different numbers. -/
structure ValidLessOn {α : Type} (less : α → α → Bool) (xs : List α) : Prop where
  irrefl : ∀ a ∈ xs, less a a = false
  trans : ∀ a ∈ xs, ∀ b ∈ xs, ∀ c ∈ xs,
    less a b = true → less b c = true → less a c = true
  negTrans : ∀ a ∈ xs, ∀ b ∈ xs, ∀ c ∈ xs,
    less a b = false → less b c = false → less a c = false

/-- Documented behaviour of the runtime: `sort.Slice` permutes its argument and,
when `less` meets the requirement on the elements of the slice, leaves no later
element strictly before an earlier one (it is not required to be stable); a
`range` loop over a map visits every entry exactly once. -/
structure GoRuntime.Lawful (rt : GoRuntime) : Prop where
  sort_perm : ∀ less xs, (rt.SortSlice less xs).Perm xs
  sort_sorted : ∀ less xs, ValidLessOn less xs →
    (rt.SortSlice less xs).Pairwise (fun a b => less b a = false)
  range_perm : ∀ {α : Type} (m : List (String × α)), (rt.MapRange m).Perm m

/-! ## `GetTopVolumeAssetPairs` -/

/-- Trace and result of one ranking: the `batchNames` of every ticker request
issued, in order, and how the call ended. -/
structure Ranking where
  requests : List (List String)
  result : Outcome (List PairMapping)

/-- Step 2: one candidate with volume 0 per visited catalog entry whose `AltName`
is not empty. -/
def buildPairsMapping : List (String × AssetPair) → List PairMapping
  | [] => []
  | (internalName, pair) :: rest =>
    if pair.AltName ≠ "" then
      ⟨internalName, pair.AltName, 0⟩ :: buildPairsMapping rest
    else
      buildPairsMapping rest

/-- The constant `batchSize := 10`. -/
def batchSize : Nat := 10

/-- Inner loop `for j := i; j < end; j++` collecting `InternalName`s; `k` is
`end - j`. -/
def collectBatchNames (pairsMapping : List PairMapping) : Nat → Nat → List String
  | _, 0 => []
  | j, k + 1 =>
    match pairsMapping[j]? with
    | some p => p.InternalName :: collectBatchNames pairsMapping (j + 1) k
    | none => []

/-- Loop `for j := range pairsMapping`: set the volume of the first candidate with
that internal name, then `break`. -/
def setVolume (internalName : String) (volume : Decimal) :
    List PairMapping → List PairMapping
  | [] => []
  | p :: ps =>
    if p.InternalName = internalName then
      { p with Volume := volume } :: ps
    else
      p :: setVolume internalName volume ps

/-- Loop `for internalName, ticker := range tickerResponse.Result` over the visited
entries; `none` when `ticker.Volume[1]` is out of range. -/
def applyTickers (rt : GoRuntime) :
    List (String × TickerInfo) → List PairMapping → Option (List PairMapping)
  | [], pairsMapping => some pairsMapping
  | (internalName, ticker) :: rest, pairsMapping =>
    match ticker.Volume[1]? with
    | none => none
    | some s =>
      applyTickers rt rest (setVolume internalName (rt.ParseFloat s) pairsMapping)

/-- Step 3: loop `for i := 0; i < len(pairsMapping); i += batchSize`.  `reqs` is
the trace so far. -/
def probeLoop (rt : GoRuntime) (w : World) :
    Nat → Nat → List PairMapping → List (List String) → Ranking
  | 0, i, pairsMapping, reqs =>
    if i < pairsMapping.length then ⟨reqs, .outOfFuel⟩ else ⟨reqs, .ok pairsMapping⟩
  | fuel + 1, i, pairsMapping, reqs =>
    if i < pairsMapping.length then
      let stop := if i + batchSize > pairsMapping.length then pairsMapping.length
        else i + batchSize
      let batchNames := collectBatchNames pairsMapping i (stop - i)
      let pairParam := ",".intercalate batchNames
      match w.batchTicker reqs.length pairParam with
      | .transportError => probeLoop rt w fuel (i + batchSize) pairsMapping (reqs ++ [batchNames])
      | .undecodable => probeLoop rt w fuel (i + batchSize) pairsMapping (reqs ++ [batchNames])
      | .decoded tickerResponse =>
        if tickerResponse.Error.length > 0 then
          probeLoop rt w fuel (i + batchSize) pairsMapping (reqs ++ [batchNames])
        else
          match applyTickers rt (rt.MapRange tickerResponse.Result) pairsMapping with
          | none => ⟨reqs ++ [batchNames], .panic⟩
          | some updated =>
            probeLoop rt w fuel (i + batchSize) updated (reqs ++ [batchNames])
    else ⟨reqs, .ok pairsMapping⟩

/-- The `less` of step 4: `pairsMapping[i].Volume > pairsMapping[j].Volume`. -/
def volumeGreater (a b : PairMapping) : Bool := decide (a.Volume > b.Volume)

/-- Step 5: loop `for i := 0; i < count && i < len(pairsMapping); i++` appending
`pairsMapping[i]`; the second argument is `pairsMapping[i:]`. -/
def selectTop (count : Int) : Nat → List PairMapping → List PairMapping
  | _, [] => []
  | i, pair :: rest =>
    if (i : Int) < count then pair :: selectTop count (i + 1) rest else []

/-- Function `GetTopVolumeAssetPairs(count)`. -/
def GetTopVolumeAssetPairs (rt : GoRuntime) (w : World) (count : Int) : Ranking :=
  match w.assetPairs with
  | .transportError => ⟨[], .error⟩
  | .undecodable => ⟨[], .error⟩
  | .decoded response =>
    if response.Error.length > 0 then ⟨[], .error⟩
    else
      let pairsMapping := buildPairsMapping (rt.MapRange response.Result)
      let probe := probeLoop rt w pairsMapping.length 0 pairsMapping []
      match probe.result with
      | .ok probed =>
        ⟨probe.requests, .ok (selectTop count 0 (rt.SortSlice volumeGreater probed))⟩
      | .error => ⟨probe.requests, .error⟩
      | .panic => ⟨probe.requests, .panic⟩
      | .outOfFuel => ⟨probe.requests, .outOfFuel⟩

/-- Function `GetAssetPairs`. -/
def GetAssetPairs (rt : GoRuntime) (w : World) : Ranking :=
  GetTopVolumeAssetPairs rt w 20

/-! ## `ArchiveData` -/

/-- Function `GetTicker(pair)` for the ranked instrument number `j`: the first entry the
`range` loop visits, an error when the reply is unusable or empty. -/
def GetTicker (rt : GoRuntime) (w : World) (j : Nat) (pair : String) : Outcome TickerInfo :=
  match w.pairTicker j pair with
  | .transportError => .error
  | .undecodable => .error
  | .decoded tickerResp =>
    if tickerResp.Error.length > 0 then .error
    else
      match rt.MapRange tickerResp.Result with
      | (_, info) :: _ => .ok info
      | [] => .error

/-- Loop `for _, pair := range pairs` of `ArchiveData`; `j` numbers the
instrument.  An index out of range in a ticker field is a panic. -/
def archiveLoop (rt : GoRuntime) (w : World) : Nat → List PairMapping → DB → Outcome DB
  | _, [], db => .ok db
  | j, pair :: rest, db =>
    match GetTicker rt w j pair.InternalName with
    | .ok tickerInfo =>
      match tickerInfo.Ask[0]?, tickerInfo.Bid[0]?, tickerInfo.Last[0]?,
          tickerInfo.Volume[1]?, tickerInfo.High[0]?, tickerInfo.Low[0]? with
      | some a, some b, some c, some v, some h, some l =>
        archiveLoop rt w (j + 1) rest
          (InsertCryptoData db pair.AltName (rt.ParseFloat a) (rt.ParseFloat b)
            (rt.ParseFloat c) (rt.ParseFloat v) (rt.ParseFloat h) (rt.ParseFloat l)
            (w.now j))
      | _, _, _, _, _, _ => .panic
    | .error => archiveLoop rt w (j + 1) rest db
    | .panic => .panic
    | .outOfFuel => .outOfFuel

/-- Function `ArchiveData(db)`: the table after the pass. -/
def ArchiveData (rt : GoRuntime) (w : World) (db : DB) : Outcome DB :=
  match (GetAssetPairs rt w).result with
  | .ok pairs => archiveLoop rt w 0 pairs db
  | .error => .ok db
  | .panic => .panic
  | .outOfFuel => .outOfFuel

/-! ## CSV export -/

/-- The verb `%02d` on a natural number. -/
def pad2 (n : Nat) : String :=
  if n < 10 then "0" ++ toString n else toString n

/-- Function `generateCSVFilename`. -/
def generateCSVFilename (now : Clock) : String :=
  let minutes := (now.Minute / 5) * 5
  "crypto_data_" ++ pad2 now.Day ++ "_" ++ pad2 now.Month ++ "_" ++ toString now.Year
    ++ "_" ++ pad2 now.Hour ++ "_" ++ pad2 minutes ++ ".csv"

/-- Function `ExportAllPairsToSingleCSV`: the file name on success.  The rows written to
the file are not modelled. -/
def ExportAllPairsToSingleCSV (w : World) (_db : DB) : Outcome String :=
  if w.exportFails then .error else .ok (generateCSVFilename w.clock)

/-- Function `ExportPairToCSV`: the file name on success, the pair name and an
underscore put before the generated name.  The rows written to the file are not
modelled. -/
def ExportPairToCSV (w : World) (_db : DB) (pair : String) : Outcome String :=
  if w.exportFails then .error else .ok (pair ++ "_" ++ generateCSVFilename w.clock)

/-! ## `ArchiveDataContinuously` -/

/-- State of the loop: the table and the local `counter`.  The counter is a Go
`int` that grows by one per tick; it is carried by a natural number. -/
structure Scheduler where
  db : DB
  counter : Nat
deriving DecidableEq

/-- First half of the `ticker.C` case: `ArchiveData(db)` then `counter++`. -/
def archiveCycle (rt : GoRuntime) (w : World) (s : Scheduler) : Outcome Scheduler :=
  match ArchiveData rt w s.db with
  | .ok db => .ok ⟨db, s.counter + 1⟩
  | .error => .error
  | .panic => .panic
  | .outOfFuel => .outOfFuel

/-- Second half of the `ticker.C` case: the block `if counter >= 5`.  The flag
tells whether `ExportAllPairsToSingleCSV` was called. -/
def exportStep (w : World) (s : Scheduler) : Scheduler × Bool :=
  if s.counter ≥ 5 then
    match ExportAllPairsToSingleCSV w s.db with
    | .ok _ => (⟨s.db, 0⟩, true)
    | _ => (s, true)
  else (s, false)

/-- One pass through the `ticker.C` case of the `select`. -/
def tick (rt : GoRuntime) (w : World) (s : Scheduler) : Outcome (Scheduler × Bool) :=
  match archiveCycle rt w s with
  | .ok s1 => .ok (exportStep w s1)
  | .error => .error
  | .panic => .panic
  | .outOfFuel => .outOfFuel

/-- Consecutive ticks, one `World` each: the final state and, per tick, whether
the export was called. -/
def runTicks (rt : GoRuntime) : List World → Scheduler → Outcome (Scheduler × List Bool)
  | [], s => .ok (s, [])
  | w :: ws, s =>
    match tick rt w s with
    | .ok (s1, exported) =>
      match runTicks rt ws s1 with
      | .ok (s2, log) => .ok (s2, exported :: log)
      | .error => .error
      | .panic => .panic
      | .outOfFuel => .outOfFuel
    | .error => .error
    | .panic => .panic
    | .outOfFuel => .outOfFuel

/-! ## Reference descriptions used by the statements -/

/-- Identity of a candidate: internal name and display name. -/
def PairMapping.ident (p : PairMapping) : String × String := (p.InternalName, p.AltName)

/-- Names at positions `batchSize * k` up to `batchSize * k + batchSize`
exclusive, cut at the end of the list. -/
def batchOf (names : List String) (k : Nat) : List String :=
  (names.drop (batchSize * k)).take batchSize

/-- The number `ceil(n / batchSize)`. -/
def batchCount (n : Nat) : Nat := (n + (batchSize - 1)) / batchSize

/-- Ticker entries the probe reads from the reply to request `k`: those of a
decoded reply without API error, in visiting order; none otherwise. -/
def quotesOf (rt : GoRuntime) (w : World) (names : List String) (k : Nat) :
    List (String × TickerInfo) :=
  match w.batchTicker k (",".intercalate (batchOf names k)) with
  | .decoded r => if r.Error.length > 0 then [] else rt.MapRange r.Result
  | _ => []

/-- All ticker entries read by the probe over the candidates `names`, in order. -/
def quotesSeen (rt : GoRuntime) (w : World) (names : List String) :
    List (String × TickerInfo) :=
  (List.range (batchCount names.length)).flatMap (quotesOf rt w names)

/-- The last entry read for `name`, if any. -/
def lastQuote (name : String) : List (String × TickerInfo) → Option TickerInfo
  | [] => none
  | (n, t) :: rest =>
    match lastQuote name rest with
    | some t1 => some t1
    | none => if n = name then some t else none

/-- The parsed 24h volume of a ticker entry: index 1 of its field `v`. -/
def volume24h (rt : GoRuntime) (t : TickerInfo) : Decimal :=
  rt.ParseFloat ((t.Volume[1]?).getD "")

/-- Volume of candidate `p` once the entries `qs` have been read: the 24h volume
of the last entry read for its internal name, its previous volume without one. -/
def probedVolume (rt : GoRuntime) (qs : List (String × TickerInfo)) (p : PairMapping) :
    Decimal :=
  match lastQuote p.InternalName qs with
  | none => p.Volume
  | some t => volume24h rt t

/-- Every decoded batch reply without API error carries, in each entry, a `v`
array with the two entries Kraken documents (today, last 24 hours). -/
def World.BatchVolumesPresent (w : World) : Prop :=
  ∀ k param r, w.batchTicker k param = .decoded r → r.Error.length = 0 →
    ∀ e ∈ r.Result, 2 ≤ e.2.Volume.length

/-- The catalog request succeeded with the given map. -/
def World.Catalog (w : World) (catalog : List (String × AssetPair)) : Prop :=
  ∃ r, w.assetPairs = .decoded r ∧ r.Error.length = 0 ∧ r.Result = catalog

/-- Insertion sort by `less` that keeps equal elements in their order: a
`sort.Slice` meeting its documentation. -/
def stableSortSlice (less : PairMapping → PairMapping → Bool) (xs : List PairMapping) :
    List PairMapping :=
  List.insertionSort (fun a b => less b a = false) xs

/-- A string of decimal digits read as its number, anything else as 0. -/
def parseDigits (s : String) : Decimal :=
  if s.data.all Char.isDigit then
    .num (Int.ofNat (s.data.foldl (fun n c => 10 * n + (c.toNat - 48)) 0))
  else 0

/-- A runtime: maps are visited in the listed order, the sort is
`stableSortSlice`, and numbers are read by `parseDigits`. -/
def plainRuntime : GoRuntime where
  ParseFloat := parseDigits
  SortSlice := stableSortSlice
  MapRange := fun m => m

/-- Ticker entry whose only content is the volume pair (today, last 24 hours). -/
def volumeOnly (today last24h : String) : TickerInfo :=
  ⟨[], [], [], [today, last24h], [], []⟩

/-- Three instruments A, B, C. -/
def demoCatalog : List (String × AssetPair) :=
  [("A", ⟨"A", "A"⟩), ("B", ⟨"B", "B"⟩), ("C", ⟨"C", "C"⟩)]

/-- A world with the catalog A, B, C in which every ticker request is answered with
the 24h volumes A = 50, B = 200, C = 10. -/
def demoWorld : World where
  assetPairs := .decoded ⟨[], demoCatalog⟩
  batchTicker := fun _ _ => .decoded
    ⟨[], [("A", volumeOnly "7" "50"), ("B", volumeOnly "7" "200"), ("C", volumeOnly "7" "10")]⟩
  pairTicker := fun _ _ => .transportError
  now := fun _ => "2024-01-01T00:00:00Z"
  clock := ⟨2024, 1, 1, 0, 0⟩
  exportFails := false

/-- The world of `demoWorld`, except that ticker replies quote B only. -/
def sparseWorld : World :=
  { demoWorld with
    batchTicker := fun _ _ => .decoded ⟨[], [("B", volumeOnly "7" "200")]⟩ }

/-- A world with the catalog A, B, C in which no ticker request gets through. -/
def quietWorld : World :=
  { demoWorld with batchTicker := fun _ _ => .transportError }

/-- A runtime that starts every map visit at the second listed entry and wraps
round to the first, as a Go `range` does when its random start falls there. -/
def rotatedRangeRuntime : GoRuntime where
  ParseFloat := parseDigits
  SortSlice := stableSortSlice
  MapRange := fun m => m.rotate 1

/-- The string `NaN` read as NaN (as `strconv.ParseFloat` does, without error),
any other string by `parseDigits`. -/
def parseQuote (s : String) : Decimal :=
  if s = "NaN" then .nan else parseDigits s

/-- The runtime of `plainRuntime` with numbers read by `parseQuote`. -/
def nanRuntime : GoRuntime where
  ParseFloat := parseQuote
  SortSlice := stableSortSlice
  MapRange := fun m => m

/-- The world of `demoWorld`, except that ticker replies quote the 24h volumes
A = 5, B = NaN, C = 9. -/
def nanWorld : World :=
  { demoWorld with
    batchTicker := fun _ _ => .decoded
      ⟨[], [("A", volumeOnly "7" "5"), ("B", volumeOnly "7" "NaN"),
            ("C", volumeOnly "7" "9")]⟩ }

/-- The world of `demoWorld`, except that ticker replies quote B = NaN and C = 5
only. -/
def nanSparseWorld : World :=
  { demoWorld with
    batchTicker := fun _ _ => .decoded
      ⟨[], [("B", volumeOnly "7" "NaN"), ("C", volumeOnly "7" "5")]⟩ }

/-- The candidates of the catalog with the volumes the probe gives them, in the
order the catalog map is visited; `none` when the probe panics. -/
def probedCandidates (rt : GoRuntime) (w : World) (catalog : List (String × AssetPair)) :
    Option (List PairMapping) :=
  applyTickers rt
    (quotesSeen rt w ((buildPairsMapping (rt.MapRange catalog)).map PairMapping.InternalName))
    (buildPairsMapping (rt.MapRange catalog))

/-- Every 24h volume carried by a decoded batch reply without API error parses to
a number, not to NaN. -/
def World.VolumesAreNumbers (rt : GoRuntime) (w : World) : Prop :=
  ∀ k param r, w.batchTicker k param = .decoded r → r.Error.length = 0 →
    ∀ e ∈ r.Result, ∀ s, e.2.Volume[1]? = some s → rt.ParseFloat s ≠ .nan

/-- Returned candidates of equal volume stand in the order of their catalog
entries. -/
def TiesKeepCatalogOrder (catalog : List (String × AssetPair)) (top : List PairMapping) :
    Prop :=
  ∀ (i j : Nat) (a b : PairMapping), i < j → top[i]? = some a → top[j]? = some b →
    a.Volume = b.Volume →
    (catalog.map Prod.fst).indexOf a.InternalName < (catalog.map Prod.fst).indexOf b.InternalName

/-- Twelve instruments P01 to P12. -/
def dozenCatalog : List (String × AssetPair) :=
  [("P01", ⟨"P01", ""⟩), ("P02", ⟨"P02", ""⟩), ("P03", ⟨"P03", ""⟩), ("P04", ⟨"P04", ""⟩),
   ("P05", ⟨"P05", ""⟩), ("P06", ⟨"P06", ""⟩), ("P07", ⟨"P07", ""⟩), ("P08", ⟨"P08", ""⟩),
   ("P09", ⟨"P09", ""⟩), ("P10", ⟨"P10", ""⟩), ("P11", ⟨"P11", ""⟩), ("P12", ⟨"P12", ""⟩)]

/-- A world with the twelve instruments in which the first ticker request fails in
transport, and every later one is answered with a quote for P12. -/
def dozenWorld : World where
  assetPairs := .decoded ⟨[], dozenCatalog⟩
  batchTicker := fun k _ =>
    if k = 0 then .transportError else .decoded ⟨[], [("P12", volumeOnly "1" "30")]⟩
  pairTicker := fun _ _ => .transportError
  now := fun _ => "2024-01-01T00:00:00Z"
  clock := ⟨2024, 1, 1, 0, 0⟩
  exportFails := false

/-- The archive pass of this world runs to its end (no panic) on every table. -/
def World.ArchiveCompletes (rt : GoRuntime) (w : World) : Prop :=
  ∀ db : DB, ∃ db1, ArchiveData rt w db = .ok db1

/-- The world of `demoWorld` with every single-instrument ticker request answered
by a complete entry. -/
def liveWorld : World :=
  { demoWorld with
    pairTicker := fun _ name => .decoded
      ⟨[], [(name, ⟨["3", "1", "1"], ["2", "1", "1"], ["2", "1"], ["7", "50"],
                    ["4", "4"], ["1", "1"]⟩)]⟩ }

/-- The world of `liveWorld` with a failing export. -/
def liveWorldNoExport : World :=
  { liveWorld with exportFails := true }

/-- A world in which the catalog request fails in transport. -/
def downWorld : World :=
  { demoWorld with assetPairs := .transportError }

/-! ## Reference descriptions for the archive pass and the loop -/

/-- The six ticker fields hold the entries `ArchiveData` reads: index 0 of `a`,
`b`, `c`, `h`, `l` and index 1 of `v`. -/
def TickerInfo.FieldsPresent (t : TickerInfo) : Prop :=
  0 < t.Ask.length ∧ 0 < t.Bid.length ∧ 0 < t.Last.length ∧ 1 < t.Volume.length ∧
    0 < t.High.length ∧ 0 < t.Low.length

instance (t : TickerInfo) : Decidable t.FieldsPresent := by
  unfold TickerInfo.FieldsPresent; infer_instance

/-- Whether the `GetTicker` call for ranked instrument number `j` returns a ticker. -/
def fetchSucceeds (rt : GoRuntime) (w : World) (j : Nat) (pair : PairMapping) : Bool :=
  match GetTicker rt w j pair.InternalName with
  | .ok _ => true
  | _ => false

/-- The upsert a fetched ticker leads to: keyed by the display name, the six
values read from the ticker (a missing entry read as the empty string), stamped
with the clock reading for instrument number `j`. -/
def upsertOf (rt : GoRuntime) (w : World) (j : Nat) (pair : PairMapping) (t : TickerInfo) :
    InsertCall :=
  ⟨pair.AltName,
    rt.ParseFloat ((t.Ask[0]?).getD ""), rt.ParseFloat ((t.Bid[0]?).getD ""),
    rt.ParseFloat ((t.Last[0]?).getD ""), rt.ParseFloat ((t.Volume[1]?).getD ""),
    rt.ParseFloat ((t.High[0]?).getD ""), rt.ParseFloat ((t.Low[0]?).getD ""),
    w.now j⟩

/-- The upserts of one archive pass over the ranked instruments, numbered from
`j`: one per instrument whose fetch succeeded, in ranked order, none for the
others. -/
def archiveCalls (rt : GoRuntime) (w : World) : Nat → List PairMapping → List InsertCall
  | _, [] => []
  | j, pair :: rest =>
    match GetTicker rt w j pair.InternalName with
    | .ok t => upsertOf rt w j pair t :: archiveCalls rt w (j + 1) rest
    | _ => archiveCalls rt w (j + 1) rest

/-- Every ticker fetched for a ranked instrument (numbered from `j`) holds the
entries `ArchiveData` reads. -/
def World.PairFieldsPresent (rt : GoRuntime) (w : World) (j : Nat)
    (pairs : List PairMapping) : Prop :=
  ∀ i pair t, pairs[i]? = some pair →
    GetTicker rt w (j + i) pair.InternalName = .ok t → t.FieldsPresent

/-- A world with three instruments whose internal and display names differ,
ranked XXBTZUSD (900), XETHZUSD (400), XLTCZUSD (100); the single ticker request
for XETHZUSD fails in transport, the other two get a complete entry. -/
def patchyWorld : World where
  assetPairs := .decoded
    ⟨[], [("XETHZUSD", ⟨"ETHUSD", "ETH/USD"⟩), ("XLTCZUSD", ⟨"LTCUSD", "LTC/USD"⟩),
          ("XXBTZUSD", ⟨"XBTUSD", "XBT/USD"⟩)]⟩
  batchTicker := fun _ _ => .decoded
    ⟨[], [("XETHZUSD", volumeOnly "7" "400"), ("XLTCZUSD", volumeOnly "7" "100"),
          ("XXBTZUSD", volumeOnly "7" "900")]⟩
  pairTicker := fun _ name =>
    if name = "XETHZUSD" then .transportError
    else .decoded
      ⟨[], [(name, ⟨["3", "1", "1"], ["2", "1", "1"], ["2", "1"], ["7", "50"],
                    ["4", "4"], ["1", "1"]⟩)]⟩
  now := fun _ => "2024-01-01T00:00:00Z"
  clock := ⟨2024, 1, 1, 0, 0⟩
  exportFails := false

/-- The world of `liveWorld`, except that the batch ticker replies carry an entry
for B without its field `v` (decoded to an empty array). -/
def noVolumeWorld : World :=
  { liveWorld with
    batchTicker := fun _ _ => .decoded
      ⟨[], [("A", volumeOnly "7" "50"), ("B", ⟨["3"], ["2"], ["2"], [], ["4"], ["1"]⟩)]⟩ }

/-- The world of `demoWorld`, except that every single-instrument ticker reply
carries an entry without its field `a` (decoded to an empty array). -/
def noAskWorld : World :=
  { demoWorld with
    pairTicker := fun _ name => .decoded
      ⟨[], [(name, ⟨[], ["2", "1", "1"], ["2", "1"], ["7", "50"], ["4", "4"], ["1", "1"]⟩)]⟩ }

/-- A calendar reading: month 1 to 12, day 1 to 31, hour 0 to 23, minute 0 to 59. -/
def Clock.Valid (now : Clock) : Prop :=
  1 ≤ now.Month ∧ now.Month ≤ 12 ∧ 1 ≤ now.Day ∧ now.Day ≤ 31 ∧ now.Hour < 24 ∧
    now.Minute < 60

instance (now : Clock) : Decidable now.Valid := by
  unfold Clock.Valid; infer_instance

/-- A number below 100 written with exactly two decimal digits. -/
def twoDigits (n : Nat) : String :=
  String.mk [Nat.digitChar (n / 10), Nat.digitChar (n % 10)]

/-- What the `select` of `ArchiveDataContinuously` receives. -/
inductive Event where
  /-- a value on `ticker.C`; the world is that of the cycle it starts -/
  | tickFired (w : World) : Event
  /-- `stopChan` closed -/
  | stopClosed : Event

/-- Where the goroutine stands: in its loop, returned (the deferred `wg.Done()`
has run), or dead from a panic.  For a dead loop the record keeps the table and
counter from before the tick that panicked; the store itself also holds the
upserts that tick made before it panicked, which the record does not track. -/
inductive Phase where
  | running : Phase
  | returned : Phase
  | crashed : Phase
deriving DecidableEq

/-- The loop between two events: its phase, the table and counter, and one flag per
archive cycle run so far telling whether that cycle called the export. -/
structure Loop where
  phase : Phase
  sched : Scheduler
  cycles : List Bool
deriving DecidableEq

/-- One iteration of `for { select { ... } }`: the `ticker.C` case runs the whole
cycle of `tick`, the `stopChan` case returns; after the return or a panic nothing
runs any more. -/
def loopStep (rt : GoRuntime) (st : Loop) (e : Event) : Loop :=
  match st.phase with
  | .running =>
    match e with
    | .tickFired w =>
      match tick rt w st.sched with
      | .ok (s1, exported) => ⟨.running, s1, st.cycles ++ [exported]⟩
      | _ => { st with phase := .crashed }
    | .stopClosed => { st with phase := .returned }
  | .returned => st
  | .crashed => st

/-- Function `ArchiveDataContinuously(db, interval, stopChan, wg)` run against the
events its `select` receives, from `counter := 0`. -/
def ArchiveDataContinuously (rt : GoRuntime) (db : DB) (events : List Event) : Loop :=
  events.foldl (loopStep rt) ⟨.running, ⟨db, 0⟩, []⟩

/-! ## Lemmas on the table -/

theorem pairColumn_insert (db : DB) (c : InsertCall) :
    pairColumn (c.run db) =
      if c.pair ∈ pairColumn db then pairColumn db else pairColumn db ++ [c.pair] := by
  induction db with
  | nil => simp [InsertCall.run, InsertCryptoData, pairColumn]
  | cons row rest ih =>
    simp only [InsertCall.run, pairColumn] at ih ⊢
    unfold InsertCryptoData
    by_cases h : row.pair = c.pair
    · simp [h]
    · have h' : ¬ c.pair = row.pair := fun e => h e.symm
      simp only [h, if_false, List.map_cons, List.mem_cons, h', false_or]
      rw [ih]
      split <;> simp

theorem uniquePair_insert (db : DB) (c : InsertCall) (h : UniquePair db) :
    UniquePair (c.run db) := by
  unfold UniquePair at *
  rw [pairColumn_insert]
  split
  · exact h
  · rename_i hn
    exact List.Nodup.append h (List.nodup_singleton _) (by simpa using hn)

theorem row_mem_insert (db : DB) (c : InsertCall) : c.row ∈ c.run db := by
  induction db with
  | nil => simp [InsertCall.run, InsertCryptoData, InsertCall.row]
  | cons row rest ih =>
    simp only [InsertCall.run] at ih ⊢
    unfold InsertCryptoData
    by_cases h : row.pair = c.pair
    · rw [if_pos h]
      refine List.mem_cons.mpr (Or.inl ?_)
      cases row
      cases h
      rfl
    · simp only [h, if_false, List.mem_cons]
      exact Or.inr ih

theorem other_mem_insert (db : DB) (c : InsertCall) (r : CryptoRow)
    (hr : r ∈ db) (hne : r.pair ≠ c.pair) : r ∈ c.run db := by
  induction db with
  | nil => cases hr
  | cons row rest ih =>
    simp only [InsertCall.run] at ih ⊢
    unfold InsertCryptoData
    by_cases h : row.pair = c.pair
    · simp only [h, if_true, List.mem_cons]
      rcases List.mem_cons.mp hr with e | e
      · exact absurd (e ▸ h) hne
      · exact Or.inr e
    · simp only [h, if_false, List.mem_cons]
      rcases List.mem_cons.mp hr with e | e
      · exact Or.inl e
      · exact Or.inr (ih e)

theorem uniquePair_runInserts (calls : List InsertCall) :
    ∀ db : DB, UniquePair db → UniquePair (runInserts db calls) := by
  induction calls with
  | nil => intro db h; exact h
  | cons c cs ih => intro db h; exact ih _ (uniquePair_insert db c h)

theorem pairColumn_runInserts (calls : List InsertCall) :
    ∀ (db : DB) (name : String),
      name ∈ pairColumn (runInserts db calls) ↔
        name ∈ pairColumn db ∨ name ∈ calls.map InsertCall.pair := by
  induction calls with
  | nil => intro db name; simp [runInserts]
  | cons c cs ih =>
    intro db name
    have := ih (c.run db) name
    simp only [runInserts, List.foldl_cons] at this ⊢
    rw [this, pairColumn_insert]
    by_cases hc : c.pair ∈ pairColumn db
    · simp only [hc, if_true, List.map_cons, List.mem_cons]
      constructor
      · rintro (h | h)
        · exact Or.inl h
        · exact Or.inr (Or.inr h)
      · rintro (h | h | h)
        · exact Or.inl h
        · exact Or.inl (h ▸ hc)
        · exact Or.inr h
    · simp only [hc, if_false, List.map_cons, List.mem_cons, List.mem_append,
        List.mem_singleton]
      tauto

theorem other_mem_runInserts (calls : List InsertCall) :
    ∀ (db : DB) (r : CryptoRow), r ∈ db → (∀ d ∈ calls, d.pair ≠ r.pair) →
      r ∈ runInserts db calls := by
  induction calls with
  | nil => intro db r hr _; exact hr
  | cons c cs ih =>
    intro db r hr hne
    simp only [runInserts, List.foldl_cons]
    apply ih
    · exact other_mem_insert db c r hr (fun e => hne c (List.mem_cons_self _ _) e.symm)
    · intro d hd
      exact hne d (List.mem_cons_of_mem _ hd)

theorem runInserts_append (db : DB) (xs ys : List InsertCall) :
    runInserts db (xs ++ ys) = runInserts (runInserts db xs) ys := by
  simp [runInserts, List.foldl_append]


/-! ## Lemmas on the ranking -/

theorem Decimal.num_lt_num (x y : Int) : (Decimal.num x < Decimal.num y) ↔ x < y := by
  change (decide (x < y) = true) ↔ x < y
  simp

theorem Decimal.num_le_num (x y : Int) : (Decimal.num x ≤ Decimal.num y) ↔ x ≤ y := by
  change (decide (x ≤ y) = true) ↔ x ≤ y
  simp

theorem Decimal.not_nan_le (a : Decimal) : ¬ Decimal.nan ≤ a := by
  change ¬ (false = true)
  simp

theorem Decimal.not_le_nan (a : Decimal) : ¬ a ≤ Decimal.nan := by
  cases a <;> (change ¬ (false = true); simp)

theorem Decimal.le_of_not_lt {a b : Decimal} (ha : a ≠ .nan) (hb : b ≠ .nan)
    (h : ¬ a < b) : b ≤ a := by
  cases a with
  | nan => exact absurd rfl ha
  | num x =>
    cases b with
    | nan => exact absurd rfl hb
    | num y =>
      rw [Decimal.num_lt_num] at h
      rw [Decimal.num_le_num]
      omega

theorem Decimal.not_lt_of_le {a b : Decimal} (h : b ≤ a) : ¬ a < b := by
  cases a with
  | nan => exact absurd h (Decimal.not_le_nan b)
  | num x =>
    cases b with
    | nan => exact absurd h (Decimal.not_nan_le _)
    | num y =>
      rw [Decimal.num_le_num] at h
      rw [Decimal.num_lt_num]
      omega

theorem Decimal.lt_irrefl (a : Decimal) : ¬ a < a := by
  cases a with
  | nan => change ¬ (false = true); simp
  | num x => rw [Decimal.num_lt_num]; omega

/-- On candidates none of whose volumes is NaN, the `less` of step 4 meets the
requirement of package `sort`. -/
theorem validLessOn_volumeGreater (xs : List PairMapping)
    (hnum : ∀ p ∈ xs, p.Volume ≠ .nan) : ValidLessOn volumeGreater xs := by
  have key : ∀ p ∈ xs, ∃ x, p.Volume = .num x := by
    intro p hp
    cases hv : p.Volume with
    | nan => exact absurd hv (hnum p hp)
    | num x => exact ⟨x, rfl⟩
  refine ⟨?_, ?_, ?_⟩
  · intro a ha
    obtain ⟨x, hx⟩ := key a ha
    simp only [volumeGreater, hx, gt_iff_lt, Decimal.num_lt_num, decide_eq_false_iff_not]
    omega
  · intro a ha b hb c hc h1 h2
    obtain ⟨x, hx⟩ := key a ha
    obtain ⟨y, hy⟩ := key b hb
    obtain ⟨z, hz⟩ := key c hc
    simp only [volumeGreater, hx, hy, hz, gt_iff_lt, Decimal.num_lt_num,
      decide_eq_true_eq] at *
    omega
  · intro a ha b hb c hc h1 h2
    obtain ⟨x, hx⟩ := key a ha
    obtain ⟨y, hy⟩ := key b hb
    obtain ⟨z, hz⟩ := key c hc
    simp only [volumeGreater, hx, hy, hz, gt_iff_lt, Decimal.num_lt_num,
      decide_eq_false_iff_not] at *
    omega

theorem setVolume_ident (name : String) (v : Decimal) (pm : List PairMapping) :
    (setVolume name v pm).map PairMapping.ident = pm.map PairMapping.ident := by
  induction pm with
  | nil => rfl
  | cons p ps ih =>
    unfold setVolume
    split
    · simp [PairMapping.ident]
    · simp [ih]

theorem applyTickers_append (rt : GoRuntime) (qs1 qs2 : List (String × TickerInfo)) :
    ∀ pm : List PairMapping,
      applyTickers rt (qs1 ++ qs2) pm = (applyTickers rt qs1 pm).bind (applyTickers rt qs2) := by
  induction qs1 with
  | nil => intro pm; simp [applyTickers]
  | cons q qs ih =>
    intro pm
    obtain ⟨name, t⟩ := q
    simp only [List.cons_append, applyTickers]
    cases h : t.Volume[1]? with
    | none => simp
    | some s => simpa using ih _

theorem applyTickers_ident (rt : GoRuntime) (qs : List (String × TickerInfo)) :
    ∀ pm pm1 : List PairMapping, applyTickers rt qs pm = some pm1 →
      pm1.map PairMapping.ident = pm.map PairMapping.ident := by
  induction qs with
  | nil => intro pm pm1 h; simp only [applyTickers, Option.some.injEq] at h; rw [h]
  | cons q qs ih =>
    intro pm pm1 h
    obtain ⟨name, t⟩ := q
    simp only [applyTickers] at h
    cases hv : t.Volume[1]? with
    | none => simp [hv] at h
    | some s =>
      simp only [hv] at h
      rw [ih _ _ h, setVolume_ident]

theorem applyTickers_isSome (rt : GoRuntime) (qs : List (String × TickerInfo))
    (hqs : ∀ e ∈ qs, 2 ≤ e.2.Volume.length) :
    ∀ pm : List PairMapping, ∃ pm1, applyTickers rt qs pm = some pm1 := by
  induction qs with
  | nil => intro pm; exact ⟨pm, rfl⟩
  | cons q qs ih =>
    intro pm
    obtain ⟨name, t⟩ := q
    have h2 : 1 < t.Volume.length := hqs (name, t) (List.mem_cons_self _ _)
    simp only [applyTickers, List.getElem?_eq_getElem h2]
    exact ih (fun e he => hqs e (List.mem_cons_of_mem _ he)) _

theorem ident_internalName (pm pm1 : List PairMapping)
    (h : pm1.map PairMapping.ident = pm.map PairMapping.ident) :
    pm1.map PairMapping.InternalName = pm.map PairMapping.InternalName := by
  have := congrArg (List.map Prod.fst) h
  simpa [List.map_map, Function.comp_def, PairMapping.ident] using this

theorem collectBatchNames_eq (pm : List PairMapping) :
    ∀ k j, j + k ≤ pm.length →
      collectBatchNames pm j k = ((pm.map PairMapping.InternalName).drop j).take k := by
  intro k
  induction k with
  | zero => intro j _; simp [collectBatchNames]
  | succ k ih =>
    intro j hj
    have hlt : j < pm.length := by omega
    have hlt2 : j < (pm.map PairMapping.InternalName).length := by simpa using hlt
    rw [collectBatchNames, List.getElem?_eq_getElem hlt]
    simp only
    rw [ih (j + 1) (by omega), List.drop_eq_getElem_cons hlt2, List.take_succ_cons]
    simp

theorem quotesOf_wellFormed (rt : GoRuntime) (hrt : rt.Lawful) (w : World)
    (hw : w.BatchVolumesPresent) (names : List String) (k : Nat) :
    ∀ e ∈ quotesOf rt w names k, 2 ≤ e.2.Volume.length := by
  intro e he
  unfold quotesOf at he
  split at he
  · rename_i r hr
    split at he
    · cases he
    · rename_i herr
      exact hw _ _ r hr (by omega) e ((hrt.range_perm r.Result).mem_iff.mp he)
  · cases he

/-- The probe loop, started at batch `b` with enough fuel: either every entry read
carries its volume pair, all remaining batch requests are issued and the
candidates end updated by the entries read, or some entry lacks it and the loop
panics. -/
theorem probeLoop_cases (rt : GoRuntime) (w : World) (names : List String) :
    ∀ (fuel b : Nat) (pm : List PairMapping) (reqs : List (List String)),
      pm.map PairMapping.InternalName = names → reqs.length = b →
      names.length ≤ batchSize * (b + fuel) →
      (∃ pm1,
        applyTickers rt
          ((List.range' b (batchCount names.length - b)).flatMap (quotesOf rt w names)) pm
            = some pm1 ∧
        probeLoop rt w fuel (batchSize * b) pm reqs =
          ⟨reqs ++ (List.range' b (batchCount names.length - b)).map (batchOf names),
            .ok pm1⟩) ∨
      (applyTickers rt
          ((List.range' b (batchCount names.length - b)).flatMap (quotesOf rt w names)) pm
            = none ∧
        (probeLoop rt w fuel (batchSize * b) pm reqs).result = .panic) := by
  intro fuel
  induction fuel with
  | zero =>
    intro b pm reqs hnames hreqs hfuel
    have hlen : pm.length = names.length := by rw [← hnames]; simp
    have hc : batchCount names.length - b = 0 := by
      simp only [batchCount, batchSize] at *; omega
    refine Or.inl ⟨pm, ?_, ?_⟩
    · simp [hc, applyTickers]
    · have : ¬ batchSize * b < pm.length := by simp only [batchSize] at *; omega
      simp [probeLoop, this, hc]
  | succ fuel ih =>
    intro b pm reqs hnames hreqs hfuel
    have hlen : pm.length = names.length := by rw [← hnames]; simp
    by_cases hlt : batchSize * b < pm.length
    · have hc : batchCount names.length - b = (batchCount names.length - (b + 1)) + 1 := by
        simp only [batchCount, batchSize] at *; omega
      have hbatch : collectBatchNames pm (batchSize * b)
          ((if batchSize * b + batchSize > pm.length then pm.length
            else batchSize * b + batchSize) - batchSize * b) = batchOf names b := by
        rw [collectBatchNames_eq pm _ _ (by split <;> omega), hnames]
        unfold batchOf
        split
        · rename_i hgt
          rw [List.take_of_length_le (by simp; omega), List.take_of_length_le (by simp; omega)]
        · congr 1; omega
      have hstep : batchSize * b + batchSize = batchSize * (b + 1) := by ring
      rw [hc, List.range'_succ]
      simp only [List.flatMap_cons, List.map_cons, applyTickers_append]
      rw [probeLoop]
      simp only [hlt, if_true]
      simp only [hbatch]
      simp only [hreqs, hstep]
      cases hpm0 : applyTickers rt (quotesOf rt w names b) pm with
      | none =>
        refine Or.inr ⟨by simp, ?_⟩
        unfold quotesOf at hpm0
        cases hreply : w.batchTicker b (",".intercalate (batchOf names b)) with
        | transportError => simp [hreply, applyTickers] at hpm0
        | undecodable => simp [hreply, applyTickers] at hpm0
        | decoded r =>
          simp only [hreply] at hpm0
          by_cases herr : r.Error.length > 0
          · simp [herr, applyTickers] at hpm0
          · simp only [herr, if_false] at hpm0
            simp only [herr, if_false, hpm0]
      | some pm0 =>
        have hn0 : pm0.map PairMapping.InternalName = names := by
          rw [ident_internalName _ _ (applyTickers_ident rt _ _ _ hpm0), hnames]
        have hrec := ih (b + 1) pm0 (reqs ++ [batchOf names b]) hn0
          (by simp [hreqs]) (by simp only [batchSize] at *; omega)
        have hgoal : ∀ R : Ranking,
            probeLoop rt w fuel (batchSize * (b + 1)) pm0 (reqs ++ [batchOf names b]) = R →
            (match w.batchTicker b (",".intercalate (batchOf names b)) with
              | .transportError =>
                probeLoop rt w fuel (batchSize * (b + 1)) pm (reqs ++ [batchOf names b])
              | .undecodable =>
                probeLoop rt w fuel (batchSize * (b + 1)) pm (reqs ++ [batchOf names b])
              | .decoded tickerResponse =>
                if tickerResponse.Error.length > 0 then
                  probeLoop rt w fuel (batchSize * (b + 1)) pm (reqs ++ [batchOf names b])
                else
                  match applyTickers rt (rt.MapRange tickerResponse.Result) pm with
                  | none => ⟨reqs ++ [batchOf names b], .panic⟩
                  | some updated =>
                    probeLoop rt w fuel (batchSize * (b + 1)) updated
                      (reqs ++ [batchOf names b])) = R := by
          intro R hR
          unfold quotesOf at hpm0
          cases hreply : w.batchTicker b (",".intercalate (batchOf names b)) with
          | transportError =>
            simp only [hreply, applyTickers, Option.some.injEq] at hpm0
            subst hpm0
            exact hR
          | undecodable =>
            simp only [hreply, applyTickers, Option.some.injEq] at hpm0
            subst hpm0
            exact hR
          | decoded r =>
            simp only [hreply] at hpm0
            by_cases herr : r.Error.length > 0
            · simp only [herr, if_true, applyTickers, Option.some.injEq] at hpm0
              subst hpm0
              simp only [herr, if_true]
              exact hR
            · simp only [herr, if_false] at hpm0
              simp only [herr, if_false, hpm0]
              exact hR
        rw [hgoal _ rfl]
        rcases hrec with ⟨pm1, h1, h2⟩ | ⟨h1, h2⟩
        · refine Or.inl ⟨pm1, by simp [h1], ?_⟩
          rw [h2]
          simp
        · exact Or.inr ⟨by simp [h1], h2⟩
    · have hc : batchCount names.length - b = 0 := by
        simp only [batchCount, batchSize] at *; omega
      refine Or.inl ⟨pm, ?_, ?_⟩
      · simp [hc, applyTickers]
      · rw [probeLoop]
        simp [hlt, hc]

theorem quotesSeen_wellFormed (rt : GoRuntime) (hrt : rt.Lawful) (w : World)
    (hw : w.BatchVolumesPresent) (names : List String) :
    ∀ e ∈ quotesSeen rt w names, 2 ≤ e.2.Volume.length := by
  intro e he
  simp only [quotesSeen, List.mem_flatMap] at he
  obtain ⟨k, _, hk⟩ := he
  exact quotesOf_wellFormed rt hrt w hw names k e hk

theorem selectTop_eq_take (count : Int) :
    ∀ (xs : List PairMapping) (i : Nat),
      selectTop count i xs = xs.take (count - (i : Int)).toNat := by
  intro xs
  induction xs with
  | nil => intro i; simp [selectTop]
  | cons x xs ih =>
    intro i
    unfold selectTop
    by_cases h : (i : Int) < count
    · have e : (count - (i : Int)).toNat = (count - ((i + 1 : Nat) : Int)).toNat + 1 := by
        push_cast; omega
      rw [if_pos h, ih (i + 1), e, List.take_succ_cons]
    · have e : (count - (i : Int)).toNat = 0 := by omega
      rw [if_neg h, e, List.take_zero]

/-- The whole of `GetTopVolumeAssetPairs` when the catalog request succeeds:
either the entries read all carry their volume pair, the requests are the
consecutive batches and the result is the first `count` entries of the sorted
probed candidates, or the call panics. -/
theorem getTop_cases (rt : GoRuntime) (w : World)
    (catalog : List (String × AssetPair)) (hcat : w.Catalog catalog) (count : Int) :
    (∃ probed,
      applyTickers rt
        (quotesSeen rt w
          ((buildPairsMapping (rt.MapRange catalog)).map PairMapping.InternalName))
        (buildPairsMapping (rt.MapRange catalog)) = some probed ∧
      GetTopVolumeAssetPairs rt w count =
        ⟨(List.range (batchCount (buildPairsMapping (rt.MapRange catalog)).length)).map
            (batchOf ((buildPairsMapping (rt.MapRange catalog)).map PairMapping.InternalName)),
          .ok ((rt.SortSlice volumeGreater probed).take count.toNat)⟩) ∨
    (applyTickers rt
        (quotesSeen rt w
          ((buildPairsMapping (rt.MapRange catalog)).map PairMapping.InternalName))
        (buildPairsMapping (rt.MapRange catalog)) = none ∧
      (GetTopVolumeAssetPairs rt w count).result = .panic) := by
  obtain ⟨r, hr, herr, hres⟩ := hcat
  have hnot : ¬ r.Error.length > 0 := by omega
  have hspec := probeLoop_cases rt w
    ((buildPairsMapping (rt.MapRange catalog)).map PairMapping.InternalName)
    (buildPairsMapping (rt.MapRange catalog)).length 0
    (buildPairsMapping (rt.MapRange catalog)) [] rfl rfl
    (by simp only [batchSize, List.length_map]; omega)
  simp only [Nat.sub_zero, List.length_map, List.nil_append, Nat.mul_zero,
    ← List.range_eq_range'] at hspec
  rcases hspec with ⟨probed, hp1, hp2⟩ | ⟨hp1, hp2⟩
  · refine Or.inl ⟨probed, ?_, ?_⟩
    · simpa [quotesSeen] using hp1
    · unfold GetTopVolumeAssetPairs
      simp only [hr, hnot, if_false, hres, hp2, selectTop_eq_take]
      simp
  · refine Or.inr ⟨?_, ?_⟩
    · simpa [quotesSeen] using hp1
    · unfold GetTopVolumeAssetPairs
      simp only [hr, hnot, if_false, hres, hp2]

/-- A list is returned only when the catalog request succeeded; it is then the
first `count` entries of the sorted probed candidates, after all batch requests. -/
theorem getTop_of_ok (rt : GoRuntime) (w : World) (count : Int) (top : List PairMapping)
    (h : (GetTopVolumeAssetPairs rt w count).result = .ok top) :
    ∃ catalog probed,
      w.Catalog catalog ∧
      applyTickers rt
        (quotesSeen rt w
          ((buildPairsMapping (rt.MapRange catalog)).map PairMapping.InternalName))
        (buildPairsMapping (rt.MapRange catalog)) = some probed ∧
      top = (rt.SortSlice volumeGreater probed).take count.toNat ∧
      (GetTopVolumeAssetPairs rt w count).requests =
        (List.range (batchCount (buildPairsMapping (rt.MapRange catalog)).length)).map
          (batchOf ((buildPairsMapping (rt.MapRange catalog)).map PairMapping.InternalName)) := by
  have hcat : ∃ catalog, w.Catalog catalog := by
    unfold GetTopVolumeAssetPairs at h
    split at h
    · cases h
    · cases h
    · rename_i response hresp
      split at h
      · cases h
      · rename_i herr
        exact ⟨response.Result, response, hresp, by omega, rfl⟩
  obtain ⟨catalog, hcat⟩ := hcat
  rcases getTop_cases rt w catalog hcat count with ⟨probed, hp, hget⟩ | ⟨_, hpanic⟩
  · refine ⟨catalog, probed, hcat, hp, ?_, by rw [hget]⟩
    rw [hget] at h
    simp only [Outcome.ok.injEq] at h
    exact h.symm
  · rw [hpanic] at h
    cases h

theorem catalog_unique (w : World) (c1 c2 : List (String × AssetPair))
    (h1 : w.Catalog c1) (h2 : w.Catalog c2) : c1 = c2 := by
  obtain ⟨r1, hr1, _, rfl⟩ := h1
  obtain ⟨r2, hr2, _, rfl⟩ := h2
  rw [hr1] at hr2
  cases hr2
  rfl

/-- A list is returned whenever the catalog request succeeds and every entry of a
decoded, error-free batch reply carries its volume pair. -/
theorem getTop_returns (rt : GoRuntime) (hrt : rt.Lawful) (w : World)
    (catalog : List (String × AssetPair)) (hcat : w.Catalog catalog)
    (hw : w.BatchVolumesPresent) (count : Int) :
    ∃ top, (GetTopVolumeAssetPairs rt w count).result = .ok top := by
  rcases getTop_cases rt w catalog hcat count with ⟨probed, _, hget⟩ | ⟨hnone, _⟩
  · exact ⟨_, by rw [hget]⟩
  · obtain ⟨pm1, h⟩ := applyTickers_isSome rt _
      (quotesSeen_wellFormed rt hrt w hw
        ((buildPairsMapping (rt.MapRange catalog)).map PairMapping.InternalName))
      (buildPairsMapping (rt.MapRange catalog))
    rw [h] at hnone
    cases hnone

theorem pairwise_getElem? {α : Type} {R : α → α → Prop} {l : List α} (h : l.Pairwise R)
    {i j : Nat} {a b : α} (hij : i < j) (hi : l[i]? = some a) (hj : l[j]? = some b) :
    R a b := by
  obtain ⟨hi1, rfl⟩ := List.getElem?_eq_some.mp hi
  obtain ⟨hj1, rfl⟩ := List.getElem?_eq_some.mp hj
  exact List.pairwise_iff_getElem.mp h i j hi1 hj1 hij

theorem orderedInsert_pairwise_on {α : Type} (r : α → α → Prop) [DecidableRel r]
    (S : List α) (htot : ∀ a ∈ S, ∀ b ∈ S, r a b ∨ r b a)
    (htr : ∀ a ∈ S, ∀ b ∈ S, ∀ c ∈ S, r a b → r b c → r a c)
    (a : α) (ha : a ∈ S) :
    ∀ l : List α, (∀ x ∈ l, x ∈ S) → l.Pairwise r → (l.orderedInsert r a).Pairwise r := by
  intro l
  induction l with
  | nil => intro _ _; simp
  | cons b l ih =>
    intro hl hp
    have hb : b ∈ S := hl b (List.mem_cons_self _ _)
    have hl1 : ∀ x ∈ l, x ∈ S := fun x hx => hl x (List.mem_cons_of_mem _ hx)
    rw [List.pairwise_cons] at hp
    rw [List.orderedInsert]
    split
    · rename_i hab
      rw [List.pairwise_cons]
      refine ⟨?_, List.pairwise_cons.mpr hp⟩
      intro y hy
      rcases List.mem_cons.mp hy with rfl | hy
      · exact hab
      · exact htr a ha b hb y (hl1 y hy) hab (hp.1 y hy)
    · rename_i hab
      have hba : r b a := (htot a ha b hb).resolve_left hab
      rw [List.pairwise_cons]
      refine ⟨?_, ih hl1 hp.2⟩
      intro y hy
      rcases (List.mem_orderedInsert r).mp hy with rfl | hy
      · exact hba
      · exact hp.1 y hy

theorem insertionSort_pairwise_on {α : Type} (r : α → α → Prop) [DecidableRel r]
    (S : List α) (htot : ∀ a ∈ S, ∀ b ∈ S, r a b ∨ r b a)
    (htr : ∀ a ∈ S, ∀ b ∈ S, ∀ c ∈ S, r a b → r b c → r a c) :
    ∀ l : List α, (∀ x ∈ l, x ∈ S) → (l.insertionSort r).Pairwise r := by
  intro l
  induction l with
  | nil => intro _; simp
  | cons a l ih =>
    intro hl
    have hl1 : ∀ x ∈ l, x ∈ S := fun x hx => hl x (List.mem_cons_of_mem _ hx)
    rw [List.insertionSort]
    exact orderedInsert_pairwise_on r S htot htr a (hl a (List.mem_cons_self _ _)) _
      (fun x hx => hl1 x ((List.mem_insertionSort r).mp hx)) (ih hl1)

theorem stableSortSlice_sorted (less : PairMapping → PairMapping → Bool)
    (xs : List PairMapping) (hless : ValidLessOn less xs) :
    (stableSortSlice less xs).Pairwise (fun a b => less b a = false) := by
  apply insertionSort_pairwise_on (fun a b => less b a = false) xs ?_ ?_ xs (fun x hx => hx)
  · intro a ha b hb
    by_cases h : less b a = false
    · exact Or.inl h
    · right
      show less a b = false
      cases hab : less a b with
      | false => rfl
      | true =>
        have hba : less b a = true := by simpa using h
        have := hless.trans a ha b hb a ha hab hba
        rw [hless.irrefl a ha] at this
        cases this
  · intro a ha b hb c hc h1 h2
    exact hless.negTrans c hc b hb a ha h2 h1

theorem plainRuntime_lawful : plainRuntime.Lawful where
  sort_perm := fun less xs => List.perm_insertionSort (fun a b => less b a = false) xs
  sort_sorted := fun less xs h => stableSortSlice_sorted less xs h
  range_perm := fun m => List.Perm.refl m

theorem nanRuntime_lawful : nanRuntime.Lawful where
  sort_perm := fun less xs => List.perm_insertionSort (fun a b => less b a = false) xs
  sort_sorted := fun less xs h => stableSortSlice_sorted less xs h
  range_perm := fun m => List.Perm.refl m

theorem parseDigits_number (s : String) : parseDigits s ≠ .nan := by
  unfold parseDigits
  split
  · simp
  · intro h; cases h

theorem plainRuntime_numbers (w : World) : w.VolumesAreNumbers plainRuntime :=
  fun _ _ _ _ _ _ _ s _ => parseDigits_number s

theorem rotatedRangeRuntime_numbers (w : World) : w.VolumesAreNumbers rotatedRangeRuntime :=
  fun _ _ _ _ _ _ _ s _ => parseDigits_number s

theorem demoWorld_catalog : demoWorld.Catalog demoCatalog :=
  ⟨⟨[], demoCatalog⟩, rfl, rfl, rfl⟩

theorem demoWorld_volumes : demoWorld.BatchVolumesPresent := by
  intro k param r hr _ e he
  simp only [demoWorld, HttpReply.decoded.injEq] at hr
  subst hr
  simp only [List.mem_cons, List.mem_singleton, List.not_mem_nil, or_false] at he
  rcases he with rfl | rfl | rfl <;> simp [volumeOnly]

theorem buildPairsMapping_eq_filterMap (m : List (String × AssetPair)) :
    buildPairsMapping m =
      m.filterMap (fun e => if e.2.AltName ≠ "" then some ⟨e.1, e.2.AltName, 0⟩ else none) := by
  induction m with
  | nil => rfl
  | cons e rest ih =>
    obtain ⟨name, pair⟩ := e
    unfold buildPairsMapping
    by_cases h : pair.AltName = ""
    · simp [h, ih]
    · simp [h, ih]

theorem buildPairsMapping_perm (m1 m2 : List (String × AssetPair)) (h : m1.Perm m2) :
    (buildPairsMapping m1).Perm (buildPairsMapping m2) := by
  rw [buildPairsMapping_eq_filterMap, buildPairsMapping_eq_filterMap]
  exact h.filterMap _

theorem buildPairsMapping_length (m : List (String × AssetPair)) :
    (buildPairsMapping m).length = (m.filter (fun e => e.2.AltName ≠ "")).length := by
  induction m with
  | nil => rfl
  | cons e rest ih =>
    obtain ⟨name, pair⟩ := e
    unfold buildPairsMapping
    by_cases h : pair.AltName = ""
    · simp [h, ih]
    · simp [h, ih]

/-- The sorted probed candidates are the candidates of the catalog, each once. -/
theorem sorted_ident_perm (rt : GoRuntime) (hrt : rt.Lawful)
    (catalog : List (String × AssetPair)) (qs : List (String × TickerInfo))
    (probed : List PairMapping)
    (hp : applyTickers rt qs (buildPairsMapping (rt.MapRange catalog)) = some probed) :
    ((rt.SortSlice volumeGreater probed).map PairMapping.ident).Perm
      ((buildPairsMapping catalog).map PairMapping.ident) := by
  have h1 := (hrt.sort_perm volumeGreater probed).map PairMapping.ident
  have h2 := applyTickers_ident rt qs _ _ hp
  have h3 := (buildPairsMapping_perm _ _ (hrt.range_perm catalog)).map PairMapping.ident
  exact h1.trans (h2 ▸ h3)

theorem setVolume_eq_map (name : String) (v : Decimal) (pm : List PairMapping)
    (hnd : (pm.map PairMapping.InternalName).Nodup) :
    setVolume name v pm =
      pm.map (fun p => if p.InternalName = name then { p with Volume := v } else p) := by
  induction pm with
  | nil => rfl
  | cons p ps ih =>
    rw [List.map_cons, List.nodup_cons] at hnd
    unfold setVolume
    by_cases h : p.InternalName = name
    · simp only [h, if_true, List.map_cons, List.cons.injEq, true_and]
      symm
      calc ps.map (fun q => if q.InternalName = name then { q with Volume := v } else q)
          = ps.map id := by
            apply List.map_congr_left
            intro q hq
            have : q.InternalName ≠ name := by
              intro e
              exact hnd.1 (h ▸ e ▸ List.mem_map_of_mem _ hq)
            simp [this]
        _ = ps := List.map_id ps
    · simp only [h, if_false, List.map_cons, ih hnd.2]

theorem lastQuote_eq_none_iff (name : String) (qs : List (String × TickerInfo)) :
    lastQuote name qs = none ↔ name ∉ qs.map Prod.fst := by
  induction qs with
  | nil => simp [lastQuote]
  | cons q qs ih =>
    obtain ⟨n, t⟩ := q
    unfold lastQuote
    cases h : lastQuote name qs with
    | some t1 =>
      have : ¬ name ∉ qs.map Prod.fst := fun hn => by
        rw [ih.mpr hn] at h; cases h
      simp only [List.map_cons, List.mem_cons, not_or]
      constructor
      · intro e; cases e
      · intro e; exact absurd e.2 this
    | none =>
      have hn := ih.mp h
      simp only [List.map_cons, List.mem_cons, not_or]
      by_cases e : n = name
      · simp [e]
      · simp only [e, if_false, true_iff]
        exact ⟨fun e1 => e e1.symm, hn⟩

/-- Reading the entries `qs` changes nothing but the volumes, each candidate
getting `probedVolume`. -/
theorem applyTickers_volume (rt : GoRuntime) (qs : List (String × TickerInfo)) :
    ∀ pm pm1 : List PairMapping, (pm.map PairMapping.InternalName).Nodup →
      applyTickers rt qs pm = some pm1 →
      pm1 = pm.map (fun p => { p with Volume := probedVolume rt qs p }) := by
  induction qs with
  | nil =>
    intro pm pm1 _ h
    simp only [applyTickers, Option.some.injEq] at h
    subst h
    simp [probedVolume, lastQuote]
  | cons q qs ih =>
    intro pm pm1 hnd h
    obtain ⟨name, t⟩ := q
    simp only [applyTickers] at h
    cases hv : t.Volume[1]? with
    | none => simp [hv] at h
    | some s =>
      simp only [hv] at h
      have hnd1 : ((setVolume name (rt.ParseFloat s) pm).map PairMapping.InternalName).Nodup := by
        rw [ident_internalName _ _ (setVolume_ident name _ pm)]
        exact hnd
      rw [ih _ _ hnd1 h, setVolume_eq_map name _ pm hnd, List.map_map]
      apply List.map_congr_left
      intro p _
      simp only [Function.comp, probedVolume, lastQuote]
      by_cases e : p.InternalName = name
      · simp only [e, if_true]
        cases lastQuote name qs with
        | some t1 => rfl
        | none => simp [volume24h, hv]
      · have e1 : ¬ name = p.InternalName := fun x => e x.symm
        simp only [e, if_false, e1]
        cases lastQuote p.InternalName qs with
        | some t1 => rfl
        | none => rfl

theorem buildPairsMapping_volume (m : List (String × AssetPair)) :
    ∀ p ∈ buildPairsMapping m, p.Volume = 0 := by
  induction m with
  | nil => intro p hp; cases hp
  | cons e rest ih =>
    obtain ⟨name, pair⟩ := e
    intro p hp
    unfold buildPairsMapping at hp
    split at hp
    · rcases List.mem_cons.mp hp with h | h
      · rw [h]
      · exact ih p h
    · exact ih p hp

theorem buildPairsMapping_names_sublist (m : List (String × AssetPair)) :
    ((buildPairsMapping m).map PairMapping.InternalName).Sublist (m.map Prod.fst) := by
  induction m with
  | nil => exact List.Sublist.slnil
  | cons e rest ih =>
    obtain ⟨name, pair⟩ := e
    unfold buildPairsMapping
    split
    · exact ih.cons₂ _
    · exact ih.cons _

theorem candidates_nodup (rt : GoRuntime) (hrt : rt.Lawful)
    (catalog : List (String × AssetPair)) (hmap : (catalog.map Prod.fst).Nodup) :
    ((buildPairsMapping (rt.MapRange catalog)).map PairMapping.InternalName).Nodup := by
  have h1 : ((rt.MapRange catalog).map Prod.fst).Nodup :=
    ((hrt.range_perm catalog).map Prod.fst).nodup_iff.mpr hmap
  exact (buildPairsMapping_names_sublist _).nodup h1

theorem sparseWorld_catalog : sparseWorld.Catalog demoCatalog :=
  ⟨⟨[], demoCatalog⟩, rfl, rfl, rfl⟩

theorem sparseWorld_volumes : sparseWorld.BatchVolumesPresent := by
  intro k param r hr _ e he
  simp only [sparseWorld, HttpReply.decoded.injEq] at hr
  subst hr
  simp only [List.mem_singleton] at he
  subst he
  simp [volumeOnly]

theorem rotatedRangeRuntime_lawful : rotatedRangeRuntime.Lawful where
  sort_perm := fun less xs => List.perm_insertionSort (fun a b => less b a = false) xs
  sort_sorted := fun less xs h => stableSortSlice_sorted less xs h
  range_perm := fun m => List.rotate_perm m 1

theorem nanWorld_catalog : nanWorld.Catalog demoCatalog :=
  ⟨⟨[], demoCatalog⟩, rfl, rfl, rfl⟩

theorem nanWorld_volumes : nanWorld.BatchVolumesPresent := by
  intro k param r hr _ e he
  simp only [nanWorld, HttpReply.decoded.injEq] at hr
  subst hr
  simp only [List.mem_cons, List.mem_singleton, List.not_mem_nil, or_false] at he
  rcases he with rfl | rfl | rfl <;> simp [volumeOnly]

theorem nanSparseWorld_catalog : nanSparseWorld.Catalog demoCatalog :=
  ⟨⟨[], demoCatalog⟩, rfl, rfl, rfl⟩

theorem nanSparseWorld_volumes : nanSparseWorld.BatchVolumesPresent := by
  intro k param r hr _ e he
  simp only [nanSparseWorld, HttpReply.decoded.injEq] at hr
  subst hr
  simp only [List.mem_cons, List.mem_singleton, List.not_mem_nil, or_false] at he
  rcases he with rfl | rfl <;> simp [volumeOnly]

theorem quietWorld_catalog : quietWorld.Catalog demoCatalog :=
  ⟨⟨[], demoCatalog⟩, rfl, rfl, rfl⟩

theorem quietWorld_volumes : quietWorld.BatchVolumesPresent := by
  intro k param r hr
  simp [quietWorld] at hr

theorem dozenWorld_catalog : dozenWorld.Catalog dozenCatalog :=
  ⟨⟨[], dozenCatalog⟩, rfl, rfl, rfl⟩

theorem dozenWorld_volumes : dozenWorld.BatchVolumesPresent := by
  intro k param r hr _ e he
  simp only [dozenWorld] at hr
  split at hr
  · cases hr
  · simp only [HttpReply.decoded.injEq] at hr
    subst hr
    simp only [List.mem_singleton] at he
    subst he
    simp [volumeOnly]

theorem batches_flatten (names : List String) :
    ∀ c, ((List.range c).map (batchOf names)).flatten = names.take (batchSize * c) := by
  intro c
  induction c with
  | zero => simp
  | succ c ih =>
    rw [List.range_succ, List.map_append, List.flatten_append, ih, Nat.mul_succ, List.take_add]
    simp [batchOf]

/-! ## Volumes that are numbers -/

theorem setVolume_numbers (name : String) (v : Decimal) (hv : v ≠ .nan) :
    ∀ pm : List PairMapping, (∀ p ∈ pm, p.Volume ≠ .nan) →
      ∀ p ∈ setVolume name v pm, p.Volume ≠ .nan := by
  intro pm
  induction pm with
  | nil => intro _ p hp; cases hp
  | cons q qs ih =>
    intro h p hp
    unfold setVolume at hp
    split at hp
    · rcases List.mem_cons.mp hp with rfl | hp
      · exact hv
      · exact h p (List.mem_cons_of_mem _ hp)
    · rcases List.mem_cons.mp hp with rfl | hp
      · exact h p (List.mem_cons_self _ _)
      · exact ih (fun x hx => h x (List.mem_cons_of_mem _ hx)) p hp

theorem applyTickers_numbers (rt : GoRuntime) (qs : List (String × TickerInfo)) :
    ∀ pm pm1 : List PairMapping, applyTickers rt qs pm = some pm1 →
      (∀ e ∈ qs, ∀ s, e.2.Volume[1]? = some s → rt.ParseFloat s ≠ .nan) →
      (∀ p ∈ pm, p.Volume ≠ .nan) → ∀ p ∈ pm1, p.Volume ≠ .nan := by
  induction qs with
  | nil =>
    intro pm pm1 h _ hpm
    simp only [applyTickers, Option.some.injEq] at h
    subst h
    exact hpm
  | cons q qs ih =>
    intro pm pm1 h hqs hpm
    obtain ⟨name, t⟩ := q
    simp only [applyTickers] at h
    cases hv : t.Volume[1]? with
    | none => simp [hv] at h
    | some s =>
      simp only [hv] at h
      exact ih _ _ h (fun e he => hqs e (List.mem_cons_of_mem _ he))
        (setVolume_numbers name _ (hqs (name, t) (List.mem_cons_self _ _) s hv) pm hpm)

theorem quotesSeen_numbers (rt : GoRuntime) (hrt : rt.Lawful) (w : World)
    (hnum : w.VolumesAreNumbers rt) (names : List String) :
    ∀ e ∈ quotesSeen rt w names, ∀ s, e.2.Volume[1]? = some s → rt.ParseFloat s ≠ .nan := by
  intro e he
  simp only [quotesSeen, List.mem_flatMap] at he
  obtain ⟨k, _, hk⟩ := he
  unfold quotesOf at hk
  split at hk
  · rename_i r hr
    split at hk
    · cases hk
    · rename_i herr
      exact hnum _ _ r hr (by omega) e ((hrt.range_perm r.Result).mem_iff.mp hk)
  · cases hk

/-- When every quoted volume parses to a number, no probed candidate carries NaN. -/
theorem probed_numbers (rt : GoRuntime) (hrt : rt.Lawful) (w : World)
    (hnum : w.VolumesAreNumbers rt) (catalog : List (String × AssetPair))
    (probed : List PairMapping) (hp : probedCandidates rt w catalog = some probed) :
    ∀ p ∈ probed, p.Volume ≠ .nan := by
  refine applyTickers_numbers rt _ _ _ hp (quotesSeen_numbers rt hrt w hnum _) ?_
  intro p hp0 hnan
  rw [buildPairsMapping_volume _ p hp0] at hnan
  cases hnan

/-- Candidates without NaN come out of `sort.Slice` in descending volume order. -/
theorem sorted_of_numbers (rt : GoRuntime) (hrt : rt.Lawful) (probed : List PairMapping)
    (h : ∀ p ∈ probed, p.Volume ≠ .nan) :
    (rt.SortSlice volumeGreater probed).Pairwise (fun a b => a.Volume ≥ b.Volume) := by
  have hs := hrt.sort_sorted volumeGreater probed (validLessOn_volumeGreater probed h)
  refine hs.imp_of_mem ?_
  intro a b ha hb hab
  have ha1 := h a ((hrt.sort_perm volumeGreater probed).mem_iff.mp ha)
  have hb1 := h b ((hrt.sort_perm volumeGreater probed).mem_iff.mp hb)
  simp only [volumeGreater, gt_iff_lt, decide_eq_false_iff_not] at hab
  exact Decimal.le_of_not_lt ha1 hb1 hab

/-! ## The loop bound is never exhausted -/

theorem applyTickers_length (rt : GoRuntime) (qs : List (String × TickerInfo))
    (pm pm1 : List PairMapping) (h : applyTickers rt qs pm = some pm1) :
    pm1.length = pm.length := by
  have := congrArg List.length (applyTickers_ident rt qs pm pm1 h)
  simpa using this

theorem probeLoop_fuel (rt : GoRuntime) (w : World) :
    ∀ (fuel i : Nat) (pm : List PairMapping) (reqs : List (List String)),
      pm.length ≤ i + batchSize * fuel →
      (probeLoop rt w fuel i pm reqs).result ≠ .outOfFuel := by
  intro fuel
  induction fuel with
  | zero =>
    intro i pm reqs h
    have : ¬ i < pm.length := by omega
    simp [probeLoop, this]
  | succ fuel ih =>
    intro i pm reqs h
    have hnext : pm.length ≤ i + batchSize + batchSize * fuel := by
      rw [Nat.mul_succ] at h; omega
    rw [probeLoop]
    by_cases hlt : i < pm.length
    · simp only [hlt, if_true]
      split
      · exact ih _ _ _ hnext
      · exact ih _ _ _ hnext
      · split
        · exact ih _ _ _ hnext
        · split
          · simp
          · rename_i updated hupd
            exact ih _ _ _ (by rw [applyTickers_length rt _ _ _ hupd]; exact hnext)
    · simp [hlt]

theorem getTop_fuel (rt : GoRuntime) (w : World) (count : Int) :
    (GetTopVolumeAssetPairs rt w count).result ≠ .outOfFuel := by
  unfold GetTopVolumeAssetPairs
  split
  · simp
  · simp
  · split
    · simp
    · simp only
      split
      · simp
      · simp
      · simp
      · rename_i h
        exact absurd h (probeLoop_fuel rt w _ 0 _ [] (by simp only [batchSize]; omega))

theorem archiveLoop_fuel (rt : GoRuntime) (w : World) :
    ∀ (pairs : List PairMapping) (j : Nat) (db : DB),
      archiveLoop rt w j pairs db ≠ .outOfFuel := by
  intro pairs
  induction pairs with
  | nil => intro j db; simp [archiveLoop]
  | cons pair rest ih =>
    intro j db
    have hticker : GetTicker rt w j pair.InternalName ≠ .outOfFuel ∧
        GetTicker rt w j pair.InternalName ≠ .panic := by
      unfold GetTicker
      split
      · simp
      · simp
      · split
        · simp
        · split <;> simp
    rw [archiveLoop]
    split
    · split
      · exact ih _ _
      · simp
    · exact ih _ _
    · rename_i h; exact absurd h hticker.2
    · rename_i h; exact absurd h hticker.1

theorem archiveData_fuel (rt : GoRuntime) (w : World) (db : DB) :
    ArchiveData rt w db ≠ .outOfFuel := by
  unfold ArchiveData
  split
  · exact archiveLoop_fuel rt w _ 0 db
  · simp
  · simp
  · rename_i h
    exact absurd h (getTop_fuel rt w 20)

/-! ## Lemmas on the loop -/

theorem tick_of_completes (rt : GoRuntime) (w : World) (hw : w.ArchiveCompletes rt)
    (s : Scheduler) :
    ∃ db1, ArchiveData rt w s.db = .ok db1 ∧
      tick rt w s = .ok (exportStep w ⟨db1, s.counter + 1⟩) := by
  obtain ⟨db1, h⟩ := hw s.db
  exact ⟨db1, h, by simp [tick, archiveCycle, h]⟩

theorem exportStep_not_due (w : World) (s : Scheduler) (h : s.counter < 5) :
    exportStep w s = (s, false) := by
  have : ¬ s.counter ≥ 5 := by omega
  simp [exportStep, this]

theorem exportStep_due_ok (w : World) (s : Scheduler) (h : 5 ≤ s.counter)
    (hexp : w.exportFails = false) :
    exportStep w s = (⟨s.db, 0⟩, true) := by
  have : s.counter ≥ 5 := h
  simp [exportStep, this, ExportAllPairsToSingleCSV, hexp]

theorem exportStep_due_fail (w : World) (s : Scheduler) (h : 5 ≤ s.counter)
    (hexp : w.exportFails = true) :
    exportStep w s = (s, true) := by
  have : s.counter ≥ 5 := h
  simp [exportStep, this, ExportAllPairsToSingleCSV, hexp]

theorem liveWorld_ranking :
    (GetAssetPairs plainRuntime liveWorld).result
      = .ok [⟨"B", "B", 200⟩, ⟨"A", "A", 50⟩, ⟨"C", "C", 10⟩] := by decide

theorem liveWorld_completes : liveWorld.ArchiveCompletes plainRuntime := by
  intro db
  simp only [ArchiveData, liveWorld_ranking]
  exact ⟨_, rfl⟩

theorem liveWorldNoExport_completes : liveWorldNoExport.ArchiveCompletes plainRuntime := by
  intro db
  have h : (GetAssetPairs plainRuntime liveWorldNoExport).result
      = .ok [⟨"B", "B", 200⟩, ⟨"A", "A", 50⟩, ⟨"C", "C", 10⟩] := by decide
  simp only [ArchiveData, h]
  exact ⟨_, rfl⟩

theorem runTicks_append (rt : GoRuntime) (xs ys : List World) :
    ∀ (s s1 s2 : Scheduler) (l1 l2 : List Bool),
      runTicks rt xs s = .ok (s1, l1) → runTicks rt ys s1 = .ok (s2, l2) →
      runTicks rt (xs ++ ys) s = .ok (s2, l1 ++ l2) := by
  induction xs with
  | nil =>
    intro s s1 s2 l1 l2 h1 h2
    simp only [runTicks, Outcome.ok.injEq, Prod.mk.injEq] at h1
    obtain ⟨rfl, rfl⟩ := h1
    simpa using h2
  | cons x xs ih =>
    intro s s1 s2 l1 l2 h1 h2
    simp only [List.cons_append, runTicks] at h1 ⊢
    cases ht : tick rt x s with
    | ok r =>
      obtain ⟨sa, e⟩ := r
      simp only [ht] at h1 ⊢
      cases hr : runTicks rt xs sa with
      | ok r2 =>
        obtain ⟨sb, lb⟩ := r2
        simp only [hr, Outcome.ok.injEq, Prod.mk.injEq] at h1
        obtain ⟨rfl, rfl⟩ := h1
        simp [ih sa sb s2 lb l2 hr h2]
      | error => simp [hr] at h1
      | panic => simp [hr] at h1
      | outOfFuel => simp [hr] at h1
    | error => simp [ht] at h1
    | panic => simp [ht] at h1
    | outOfFuel => simp [ht] at h1

theorem flags_cons (c n : Nat) :
    (List.range (n + 1)).map (fun i => decide ((c + i + 1) % 5 = 0))
      = decide ((c + 1) % 5 = 0)
          :: (List.range n).map (fun i => decide ((c + 1 + i + 1) % 5 = 0)) := by
  rw [List.range_succ_eq_map, List.map_cons, List.map_map]
  congr 1
  apply List.map_congr_left
  intro i _
  simp only [Function.comp_apply, Nat.succ_eq_add_one]
  rw [decide_eq_decide]
  have : c + (i + 1) + 1 = c + 1 + i + 1 := by omega
  rw [this]

theorem flags_wrap (n : Nat) :
    (List.range n).map (fun i => decide ((4 + 1 + i + 1) % 5 = 0))
      = (List.range n).map (fun i => decide ((0 + i + 1) % 5 = 0)) := by
  apply List.map_congr_left
  intro i _
  rw [decide_eq_decide]
  omega

/-- Ticks whose export attempts all succeed, from a counter below 5: the export is
called exactly when the running count reaches a multiple of 5. -/
theorem runTicks_exports_ok (rt : GoRuntime) (ws : List World) :
    ∀ (db : DB) (c : Nat), c < 5 → (∀ w ∈ ws, w.ArchiveCompletes rt) →
      (∀ i w, ws[i]? = some w → (c + i + 1) % 5 = 0 → w.exportFails = false) →
      ∃ s, runTicks rt ws ⟨db, c⟩
          = .ok (s, (List.range ws.length).map (fun i => decide ((c + i + 1) % 5 = 0))) ∧
        s.counter = (c + ws.length) % 5 := by
  induction ws with
  | nil =>
    intro db c hc _ _
    exact ⟨⟨db, c⟩, by simp [runTicks], by simp; omega⟩
  | cons w ws ih =>
    intro db c hc hrun hexp
    obtain ⟨db1, _, htick⟩ := tick_of_completes rt w (hrun w (List.mem_cons_self _ _)) ⟨db, c⟩
    have hrun1 : ∀ v ∈ ws, v.ArchiveCompletes rt := fun v hv => hrun v (List.mem_cons_of_mem _ hv)
    rw [List.length_cons, flags_cons]
    by_cases hdue : c + 1 < 5
    · have hexp1 : ∀ i v, ws[i]? = some v → (c + 1 + i + 1) % 5 = 0 → v.exportFails = false := by
        intro i v hv hi
        exact hexp (i + 1) v (by simpa using hv) (by omega)
      obtain ⟨s, hs, hcnt⟩ := ih db1 (c + 1) hdue hrun1 hexp1
      refine ⟨s, ?_, by rw [hcnt]; congr 1; omega⟩
      have h0 : decide ((c + 1) % 5 = 0) = false := by
        simp only [decide_eq_false_iff_not]; omega
      rw [runTicks, htick, exportStep_not_due w _ hdue, h0]
      simp only [hs]
    · have hc4 : c = 4 := by omega
      subst hc4
      have hexpw : w.exportFails = false := hexp 0 w (by simp) (by decide)
      have hexp1 : ∀ i v, ws[i]? = some v → (0 + i + 1) % 5 = 0 → v.exportFails = false := by
        intro i v hv hi
        exact hexp (i + 1) v (by simpa using hv) (by omega)
      obtain ⟨s, hs, hcnt⟩ := ih db1 0 (by omega) hrun1 hexp1
      refine ⟨s, ?_, by rw [hcnt]; omega⟩
      have h0 : decide ((4 + 1) % 5 = 0) = true := by decide
      rw [runTicks, htick, exportStep_due_ok w _ (by simp) hexpw, h0, flags_wrap]
      simp only [hs]

/-- Ticks whose exports all fail, from a counter of at least 4: every tick calls
the export and the counter only grows. -/
theorem runTicks_exports_fail (rt : GoRuntime) (ws : List World) :
    ∀ (s : Scheduler), 4 ≤ s.counter → (∀ w ∈ ws, w.ArchiveCompletes rt) →
      (∀ w ∈ ws, w.exportFails = true) →
      ∃ s1, runTicks rt ws s = .ok (s1, List.replicate ws.length true) ∧
        s1.counter = s.counter + ws.length := by
  induction ws with
  | nil => intro s _ _ _; exact ⟨s, by simp [runTicks], by simp⟩
  | cons w ws ih =>
    intro s hc hrun hexp
    obtain ⟨db1, _, htick⟩ := tick_of_completes rt w (hrun w (List.mem_cons_self _ _)) s
    obtain ⟨s1, hs1, hcnt⟩ := ih ⟨db1, s.counter + 1⟩ (by simp; omega)
      (fun v hv => hrun v (List.mem_cons_of_mem _ hv))
      (fun v hv => hexp v (List.mem_cons_of_mem _ hv))
    refine ⟨s1, ?_, by rw [hcnt, List.length_cons]; simp; omega⟩
    rw [runTicks, htick,
      exportStep_due_fail w _ (by simp; omega) (hexp w (List.mem_cons_self _ _))]
    simp [hs1, List.replicate_succ]

theorem count_export_flags (n : Nat) :
    ((List.range n).map (fun i => decide ((i + 1) % 5 = 0))).count true = n / 5 := by
  induction n with
  | zero => simp
  | succ n ih =>
    rw [List.range_succ, List.map_append, List.count_append, ih]
    by_cases h : (n + 1) % 5 = 0
    · simp [h]; omega
    · simp [h]; omega

/-! ## C1: the upsert is last-write-wins -/

/-- C2. Whatever the count, the catalog and the quoted volumes, these parsing to
numbers, a list returned by `GetTopVolumeAssetPairs` is in non-increasing volume
order: of two entries the later one never has the larger volume.  A list is
returned whenever the catalog request succeeds and the ticker entries carry their
volume pair. -/
theorem C2_ranking_non_increasing (rt : GoRuntime) (hrt : rt.Lawful) (w : World)
    (hnum : w.VolumesAreNumbers rt) (count : Int) :
    (∀ top, (GetTopVolumeAssetPairs rt w count).result = .ok top →
      ∀ (i j : Nat) (a b : PairMapping), i < j → top[i]? = some a → top[j]? = some b →
        a.Volume ≥ b.Volume) ∧
    (∀ catalog, w.Catalog catalog → w.BatchVolumesPresent →
      ∃ top, (GetTopVolumeAssetPairs rt w count).result = .ok top) := by
  refine ⟨?_, fun catalog hcat hw => getTop_returns rt hrt w catalog hcat hw count⟩
  intro top htop i j a b hij hi hj
  obtain ⟨catalog, probed, _, hp, rfl, _⟩ := getTop_of_ok rt w count top htop
  have hsorted := (sorted_of_numbers rt hrt probed
    (probed_numbers rt hrt w hnum catalog probed hp)).take (n := count.toNat)
  exact pairwise_getElem? hsorted hij hi hj

/-- C2 on the catalog A (50), B (200), C (10) with count 3. -/
theorem C2_ranking_non_increasing_witness :
    demoWorld.VolumesAreNumbers plainRuntime ∧
    (GetTopVolumeAssetPairs plainRuntime demoWorld 3).result
      = .ok [⟨"B", "B", 200⟩, ⟨"A", "A", 50⟩, ⟨"C", "C", 10⟩] ∧
    (∀ (i j : Nat) (a b : PairMapping), i < j →
      [(⟨"B", "B", 200⟩ : PairMapping), ⟨"A", "A", 50⟩, ⟨"C", "C", 10⟩][i]? = some a →
      [(⟨"B", "B", 200⟩ : PairMapping), ⟨"A", "A", 50⟩, ⟨"C", "C", 10⟩][j]? = some b →
      a.Volume ≥ b.Volume) ∧
    ∃ top, (GetTopVolumeAssetPairs plainRuntime demoWorld 3).result = .ok top :=
  ⟨plainRuntime_numbers demoWorld, by decide,
   (C2_ranking_non_increasing plainRuntime plainRuntime_lawful demoWorld
     (plainRuntime_numbers demoWorld) 3).1 _ (by decide),
   (C2_ranking_non_increasing plainRuntime plainRuntime_lawful demoWorld
     (plainRuntime_numbers demoWorld) 3).2 demoCatalog demoWorld_catalog demoWorld_volumes⟩

/-- C4. With `n` the number of catalog entries whose display name is not empty, a
list returned by `GetTopVolumeAssetPairs(count)` has `min(count, n)` entries (none
for a negative count): never more than `count`, never more than `n`, and every
candidate when `n` does not exceed `count`.  A list is returned whenever the
catalog request succeeds and the ticker entries carry their volume pair. -/
theorem C4_ranking_length (rt : GoRuntime) (hrt : rt.Lawful) (w : World)
    (catalog : List (String × AssetPair)) (hcat : w.Catalog catalog) (count : Int) :
    (∀ top, (GetTopVolumeAssetPairs rt w count).result = .ok top →
      top.length = min count.toNat (catalog.filter (fun e => e.2.AltName ≠ "")).length ∧
      top.length ≤ (catalog.filter (fun e => e.2.AltName ≠ "")).length ∧
      (0 ≤ count → (top.length : Int) ≤ count) ∧
      (((catalog.filter (fun e => e.2.AltName ≠ "")).length : Int) ≤ count →
        (top.map PairMapping.ident).Perm
          ((buildPairsMapping catalog).map PairMapping.ident))) ∧
    (w.BatchVolumesPresent →
      ∃ top, (GetTopVolumeAssetPairs rt w count).result = .ok top) := by
  refine ⟨?_, fun hw => getTop_returns rt hrt w catalog hcat hw count⟩
  intro top htop
  obtain ⟨catalog1, probed, hcat1, hp, rfl, _⟩ := getTop_of_ok rt w count top htop
  cases catalog_unique w catalog catalog1 hcat hcat1
  have hperm := sorted_ident_perm rt hrt catalog _ probed hp
  have hlen : (rt.SortSlice volumeGreater probed).length
      = (catalog.filter (fun e => e.2.AltName ≠ "")).length := by
    have := hperm.length_eq
    simpa [buildPairsMapping_length] using this
  have htop : ((rt.SortSlice volumeGreater probed).take count.toNat).length
      = min count.toNat (catalog.filter (fun e => e.2.AltName ≠ "")).length := by
    rw [List.length_take, hlen]
  refine ⟨htop, ?_, ?_, ?_⟩
  · rw [htop]; exact Nat.min_le_right _ _
  · intro h0
    rw [htop]
    have : (min count.toNat (catalog.filter (fun e => e.2.AltName ≠ "")).length : Nat)
        ≤ count.toNat := Nat.min_le_left _ _
    omega
  · intro hn
    rw [List.take_of_length_le (by rw [hlen]; omega)]
    exact hperm

/-- C4 on the catalog A, B, C: count 2 gives two entries, count 20 gives three. -/
theorem C4_ranking_length_witness :
    ((GetTopVolumeAssetPairs plainRuntime demoWorld 20).result
      = .ok [⟨"B", "B", 200⟩, ⟨"A", "A", 50⟩, ⟨"C", "C", 10⟩]) ∧
    ((GetTopVolumeAssetPairs plainRuntime demoWorld 2).result
      = .ok [⟨"B", "B", 200⟩, ⟨"A", "A", 50⟩]) ∧
    [(⟨"B", "B", 200⟩ : PairMapping), ⟨"A", "A", 50⟩].length
      = min (2 : Int).toNat (demoCatalog.filter (fun e => e.2.AltName ≠ "")).length ∧
    ∃ top, (GetTopVolumeAssetPairs plainRuntime demoWorld 2).result = .ok top :=
  ⟨by decide, by decide,
   ((C4_ranking_length plainRuntime plainRuntime_lawful demoWorld demoCatalog
     demoWorld_catalog 2).1 _ (by decide)).1,
   (C4_ranking_length plainRuntime plainRuntime_lawful demoWorld demoCatalog
     demoWorld_catalog 2).2 demoWorld_volumes⟩

/-- C6, refuted as stated. On the catalog A, B, C with no quote at all (all volumes
0), a `range` over the catalog map that starts at B and wraps round to A, as the
Go runtime does, gives the candidates B, C, A; the sort leaves these ties as they
are and B, C, A is returned: equal volumes, catalog order not kept. -/
theorem C6_ties_not_in_catalog_order :
    rotatedRangeRuntime.Lawful ∧
    quietWorld.Catalog demoCatalog ∧ quietWorld.BatchVolumesPresent ∧
    quietWorld.VolumesAreNumbers rotatedRangeRuntime ∧
    (GetTopVolumeAssetPairs rotatedRangeRuntime quietWorld 3).result
      = .ok [⟨"B", "B", 0⟩, ⟨"C", "C", 0⟩, ⟨"A", "A", 0⟩] ∧
    ¬ TiesKeepCatalogOrder demoCatalog [⟨"B", "B", 0⟩, ⟨"C", "C", 0⟩, ⟨"A", "A", 0⟩] ∧
    ¬ (∀ (rt : GoRuntime), rt.Lawful → ∀ (w : World) (catalog : List (String × AssetPair)),
        w.Catalog catalog → (catalog.map Prod.fst).Nodup → w.VolumesAreNumbers rt →
        ∀ (count : Int) (top : List PairMapping),
          (GetTopVolumeAssetPairs rt w count).result = .ok top →
          TiesKeepCatalogOrder catalog top) := by
  have hnot : ¬ TiesKeepCatalogOrder demoCatalog
      [⟨"B", "B", 0⟩, ⟨"C", "C", 0⟩, ⟨"A", "A", 0⟩] := by
    intro h
    have := h 0 2 ⟨"B", "B", 0⟩ ⟨"A", "A", 0⟩ (by decide) rfl rfl rfl
    revert this
    decide
  have hrun : (GetTopVolumeAssetPairs rotatedRangeRuntime quietWorld 3).result
      = .ok [⟨"B", "B", 0⟩, ⟨"C", "C", 0⟩, ⟨"A", "A", 0⟩] := by decide
  refine ⟨rotatedRangeRuntime_lawful, quietWorld_catalog, quietWorld_volumes,
    rotatedRangeRuntime_numbers quietWorld, hrun, hnot, ?_⟩
  intro hall
  exact hnot (hall rotatedRangeRuntime rotatedRangeRuntime_lawful
    quietWorld demoCatalog quietWorld_catalog (by decide)
    (rotatedRangeRuntime_numbers quietWorld) 3 _ hrun)

/-- C6, amended. When every quoted volume parses to a number, of two returned
candidates with different volumes the one with the larger volume comes first,
whatever their order in the catalog; nothing is promised on the relative order of
candidates with equal volume.  A list is returned whenever the catalog request
succeeds and the ticker entries carry their volume pair. -/
theorem C6_distinct_volumes_ordered (rt : GoRuntime) (hrt : rt.Lawful) (w : World)
    (hnum : w.VolumesAreNumbers rt) (count : Int) :
    (∀ top, (GetTopVolumeAssetPairs rt w count).result = .ok top →
      ∀ (i j : Nat) (a b : PairMapping), top[i]? = some a → top[j]? = some b →
        a.Volume > b.Volume → i < j) ∧
    (∀ catalog, w.Catalog catalog → w.BatchVolumesPresent →
      ∃ top, (GetTopVolumeAssetPairs rt w count).result = .ok top) := by
  refine ⟨?_, fun catalog hcat hw => getTop_returns rt hrt w catalog hcat hw count⟩
  intro top htop i j a b hi hj hgt
  obtain ⟨catalog, probed, _, hp, rfl, _⟩ := getTop_of_ok rt w count top htop
  have hsorted := (sorted_of_numbers rt hrt probed
    (probed_numbers rt hrt w hnum catalog probed hp)).take (n := count.toNat)
  rcases Nat.lt_trichotomy i j with h | h | h
  · exact h
  · subst h
    rw [hi] at hj
    cases hj
    exact absurd hgt (Decimal.lt_irrefl _)
  · have hba : b.Volume ≥ a.Volume := pairwise_getElem? hsorted h hj hi
    exact absurd hgt (Decimal.not_lt_of_le hba)

/-- C6 amended, on the catalog A (50), B (200), C (10) visited from B round to A. -/
theorem C6_distinct_volumes_ordered_witness :
    demoWorld.VolumesAreNumbers rotatedRangeRuntime ∧
    (GetTopVolumeAssetPairs rotatedRangeRuntime demoWorld 3).result
      = .ok [⟨"B", "B", 200⟩, ⟨"A", "A", 50⟩, ⟨"C", "C", 10⟩] ∧
    (∀ (i j : Nat) (a b : PairMapping),
      [(⟨"B", "B", 200⟩ : PairMapping), ⟨"A", "A", 50⟩, ⟨"C", "C", 10⟩][i]? = some a →
      [(⟨"B", "B", 200⟩ : PairMapping), ⟨"A", "A", 50⟩, ⟨"C", "C", 10⟩][j]? = some b →
      a.Volume > b.Volume → i < j) ∧
    ∃ top, (GetTopVolumeAssetPairs rotatedRangeRuntime demoWorld 3).result = .ok top :=
  ⟨rotatedRangeRuntime_numbers demoWorld, by decide,
   (C6_distinct_volumes_ordered rotatedRangeRuntime rotatedRangeRuntime_lawful
     demoWorld (rotatedRangeRuntime_numbers demoWorld) 3).1 _ (by decide),
   (C6_distinct_volumes_ordered rotatedRangeRuntime rotatedRangeRuntime_lawful
     demoWorld (rotatedRangeRuntime_numbers demoWorld) 3).2 demoCatalog demoWorld_catalog
     demoWorld_volumes⟩

/-- C7. Whatever the replies to the batch requests (transport failure, undecodable
body, API error or data), a probe over `n` candidates that runs to its end issues
`ceil(n / 10)` ticker requests; request `i` names the candidates at positions
`10 * i` up to `min(10 * i + 10, n)` exclusive, so every request has between 1
and 10 names and the requests laid end to end are the candidate list.  The probe
runs to its end, and a list is returned, whenever the ticker entries of the
usable replies carry their volume pair. -/
theorem C7_probe_batches (rt : GoRuntime) (hrt : rt.Lawful) (w : World)
    (catalog : List (String × AssetPair)) (hcat : w.Catalog catalog) (count : Int) :
    (∀ top, (GetTopVolumeAssetPairs rt w count).result = .ok top →
      ∃ names : List String,
        names = (buildPairsMapping (rt.MapRange catalog)).map PairMapping.InternalName ∧
        (GetTopVolumeAssetPairs rt w count).requests.length = (names.length + 9) / 10 ∧
        (∀ i, i < (GetTopVolumeAssetPairs rt w count).requests.length →
          (GetTopVolumeAssetPairs rt w count).requests[i]?
            = some ((names.drop (10 * i)).take 10)) ∧
        (∀ i batch, (GetTopVolumeAssetPairs rt w count).requests[i]? = some batch →
          batch.length = min (10 * i + 10) names.length - 10 * i ∧
          1 ≤ batch.length ∧ batch.length ≤ 10) ∧
        (GetTopVolumeAssetPairs rt w count).requests.flatten = names) ∧
    (w.BatchVolumesPresent →
      ∃ top, (GetTopVolumeAssetPairs rt w count).result = .ok top) := by
  refine ⟨?_, fun hw => getTop_returns rt hrt w catalog hcat hw count⟩
  intro top htop
  obtain ⟨catalog1, probed, hcat1, _, _, hreq⟩ := getTop_of_ok rt w count top htop
  cases catalog_unique w catalog catalog1 hcat hcat1
  refine ⟨_, rfl, ?_⟩
  rw [hreq]
  simp only [List.length_map, List.length_range]
  have hcount : batchCount (buildPairsMapping (rt.MapRange catalog)).length
      = ((buildPairsMapping (rt.MapRange catalog)).length + 9) / 10 := by
    simp [batchCount, batchSize]
  have hith : ∀ i, i < batchCount (buildPairsMapping (rt.MapRange catalog)).length →
      ((List.range (batchCount (buildPairsMapping (rt.MapRange catalog)).length)).map
        (batchOf ((buildPairsMapping (rt.MapRange catalog)).map PairMapping.InternalName)))[i]?
        = some ((((buildPairsMapping (rt.MapRange catalog)).map
            PairMapping.InternalName).drop (10 * i)).take 10) := by
    intro i hi
    rw [List.getElem?_map, List.getElem?_range hi]
    simp [batchOf, batchSize]
  refine ⟨hcount, hith, ?_, ?_⟩
  · intro i batch hb
    have hi : i < batchCount (buildPairsMapping (rt.MapRange catalog)).length := by
      have := (List.getElem?_eq_some.mp hb).1
      simpa using this
    rw [hith i hi] at hb
    cases hb
    simp only [List.length_take, List.length_drop, List.length_map]
    rw [hcount] at hi
    omega
  · rw [batches_flatten]
    apply List.take_of_length_le
    simp only [List.length_map, hcount, batchSize]
    omega

/-- C7 on twelve candidates, the first request failing: two requests, of ten names
and of two names. -/
theorem C7_probe_batches_witness :
    (GetTopVolumeAssetPairs plainRuntime dozenWorld 20).requests
      = [["P01", "P02", "P03", "P04", "P05", "P06", "P07", "P08", "P09", "P10"],
         ["P11", "P12"]] ∧
    (∃ names : List String,
      names = (buildPairsMapping (plainRuntime.MapRange dozenCatalog)).map
        PairMapping.InternalName ∧
      (GetTopVolumeAssetPairs plainRuntime dozenWorld 20).requests.length
        = (names.length + 9) / 10 ∧
      (∀ i, i < (GetTopVolumeAssetPairs plainRuntime dozenWorld 20).requests.length →
        (GetTopVolumeAssetPairs plainRuntime dozenWorld 20).requests[i]?
          = some ((names.drop (10 * i)).take 10)) ∧
      (∀ i batch, (GetTopVolumeAssetPairs plainRuntime dozenWorld 20).requests[i]? = some batch →
        batch.length = min (10 * i + 10) names.length - 10 * i ∧
        1 ≤ batch.length ∧ batch.length ≤ 10) ∧
      (GetTopVolumeAssetPairs plainRuntime dozenWorld 20).requests.flatten = names) ∧
    ∃ top, (GetTopVolumeAssetPairs plainRuntime dozenWorld 20).result = .ok top :=
  ⟨by decide,
   (C7_probe_batches plainRuntime plainRuntime_lawful dozenWorld dozenCatalog
     dozenWorld_catalog 20).1 _
     ((C7_probe_batches plainRuntime plainRuntime_lawful dozenWorld dozenCatalog
       dozenWorld_catalog 20).2 dozenWorld_volumes).choose_spec,
   (C7_probe_batches plainRuntime plainRuntime_lawful dozenWorld dozenCatalog
     dozenWorld_catalog 20).2 dozenWorld_volumes⟩

/-! ## C8 to C10: the periodic loop -/

/-- C8. From counter 0, over any run of ticks that complete and in which the
export succeeds on every tick whose number is a multiple of 5, after tick `t` the
counter is `t mod 5` (so 0 right after the ticks 5, 10, 15, ...),
`ExportAllPairsToSingleCSV` has been called on exactly the ticks whose number is
a multiple of 5 (these are all the export attempts), and so `t / 5` times (once
for five ticks). -/
theorem C8_export_every_fifth_tick (rt : GoRuntime) (ws : List World) (db : DB)
    (hrun : ∀ w ∈ ws, w.ArchiveCompletes rt)
    (hexp : ∀ i w, ws[i]? = some w → (i + 1) % 5 = 0 → w.exportFails = false) :
    ∀ t, t ≤ ws.length →
      ∃ s log, runTicks rt (ws.take t) ⟨db, 0⟩ = .ok (s, log) ∧
        s.counter = t % 5 ∧
        log.length = t ∧
        (∀ i, i < t → log[i]? = some (decide ((i + 1) % 5 = 0))) ∧
        log.count true = t / 5 := by
  intro t ht
  have hlen : (ws.take t).length = t := by rw [List.length_take]; omega
  obtain ⟨s, hs, hcnt⟩ := runTicks_exports_ok rt (ws.take t) db 0 (by omega)
    (fun w hw => hrun w (List.mem_of_mem_take hw))
    (by
      intro i w hw hi
      have hw1 : ws[i]? = some w := by
        rw [List.getElem?_take] at hw
        split at hw
        · exact hw
        · cases hw
      exact hexp i w hw1 (by omega))
  rw [hlen] at hs hcnt
  refine ⟨s, _, hs, by rw [hcnt]; congr 1; omega, by simp, ?_, ?_⟩
  · intro i hi
    rw [List.getElem?_map, List.getElem?_range hi]
    simp
  · have := count_export_flags t
    simpa using this

/-- C8 on five ticks of a world whose archive pass upserts three rows and whose
export succeeds: one export, on the fifth tick, and the counter back to 0. -/
theorem C8_export_every_fifth_tick_witness :
    (∀ w ∈ List.replicate 5 liveWorld, w.ArchiveCompletes plainRuntime) ∧
    (∀ i w, (List.replicate 5 liveWorld)[i]? = some w → (i + 1) % 5 = 0 →
      w.exportFails = false) ∧
    ∃ s log, runTicks plainRuntime ((List.replicate 5 liveWorld).take 5) ⟨[], 0⟩ = .ok (s, log) ∧
      s.counter = 5 % 5 ∧
      log.length = 5 ∧
      (∀ i, i < 5 → log[i]? = some (decide ((i + 1) % 5 = 0))) ∧
      log.count true = 5 / 5 :=
  ⟨fun _ hw => (List.eq_of_mem_replicate hw) ▸ liveWorld_completes,
   fun _ _ hw _ => (List.eq_of_mem_replicate (List.getElem?_mem hw)) ▸ rfl,
   C8_export_every_fifth_tick plainRuntime (List.replicate 5 liveWorld) []
     (fun _ hw => (List.eq_of_mem_replicate hw) ▸ liveWorld_completes)
     (fun _ _ hw _ => (List.eq_of_mem_replicate (List.getElem?_mem hw)) ▸ rfl) 5 (by decide)⟩

/-- C9. Once an export is due (the counter is at least 4 before a tick), over any
number of completing ticks whose export attempts all fail the export is called on
every tick and the counter is never reset, it only grows by one per tick; on the
first tick whose export succeeds the export is called and the counter becomes 0. -/
theorem C9_failed_export_retried (rt : GoRuntime) (failing : List World) (w : World)
    (s : Scheduler) (hdue : 4 ≤ s.counter)
    (hrun : ∀ v ∈ failing, v.ArchiveCompletes rt)
    (hfail : ∀ v ∈ failing, v.exportFails = true)
    (hw : w.ArchiveCompletes rt) (hok : w.exportFails = false) :
    (∃ s1, runTicks rt failing s = .ok (s1, List.replicate failing.length true) ∧
      s1.counter = s.counter + failing.length) ∧
    (∃ s2, runTicks rt (failing ++ [w]) s
        = .ok (s2, List.replicate (failing.length + 1) true) ∧
      s2.counter = 0) := by
  obtain ⟨s1, hs1, hcnt⟩ := runTicks_exports_fail rt failing s hdue hrun hfail
  refine ⟨⟨s1, hs1, hcnt⟩, ?_⟩
  obtain ⟨db2, _, htick⟩ := tick_of_completes rt w hw s1
  have hlast : runTicks rt [w] s1 = .ok (⟨db2, 0⟩, [true]) := by
    rw [runTicks, htick, exportStep_due_ok w _ (by simp; omega) hok]
    simp [runTicks]
  refine ⟨⟨db2, 0⟩, ?_, rfl⟩
  rw [runTicks_append rt failing [w] s s1 ⟨db2, 0⟩ _ _ hs1 hlast, List.replicate_succ']

/-- C9 from counter 4: two ticks with a failing export, then one with a working
export. -/
theorem C9_failed_export_retried_witness :
    (∃ s1, runTicks plainRuntime [liveWorldNoExport, liveWorldNoExport] ⟨[], 4⟩
        = .ok (s1, List.replicate [liveWorldNoExport, liveWorldNoExport].length true) ∧
      s1.counter = (⟨[], 4⟩ : Scheduler).counter + [liveWorldNoExport, liveWorldNoExport].length) ∧
    (∃ s2, runTicks plainRuntime ([liveWorldNoExport, liveWorldNoExport] ++ [liveWorld]) ⟨[], 4⟩
        = .ok (s2, List.replicate ([liveWorldNoExport, liveWorldNoExport].length + 1) true) ∧
      s2.counter = 0) :=
  C9_failed_export_retried plainRuntime [liveWorldNoExport, liveWorldNoExport] liveWorld
    ⟨[], 4⟩ (by decide)
    (by
      intro v hv
      simp only [List.mem_cons, List.mem_singleton, List.not_mem_nil, or_false, or_self] at hv
      exact hv ▸ liveWorldNoExport_completes)
    (by
      intro v hv
      simp only [List.mem_cons, List.mem_singleton, List.not_mem_nil, or_false, or_self] at hv
      exact hv ▸ rfl)
    liveWorld_completes rfl

/-- C10. On a tick whose ranking step returns an error, `ArchiveData` leaves the
table as it was, `counter++` still runs, and the tick ends like any other: the
table unchanged, the counter one higher when that stays below 5, and otherwise the
export called, the counter reset to 0 exactly when that export succeeds. -/
theorem C10_failed_ranking_skips_tick (rt : GoRuntime) (w : World) (s : Scheduler)
    (hfail : (GetAssetPairs rt w).result = .error) :
    ArchiveData rt w s.db = .ok s.db ∧
    archiveCycle rt w s = .ok ⟨s.db, s.counter + 1⟩ ∧
    ∃ s1 exported, tick rt w s = .ok (s1, exported) ∧
      s1.db = s.db ∧
      (s.counter + 1 < 5 → s1.counter = s.counter + 1 ∧ exported = false) ∧
      (5 ≤ s.counter + 1 →
        exported = true ∧ s1.counter = if w.exportFails then s.counter + 1 else 0) := by
  have harch : ArchiveData rt w s.db = .ok s.db := by simp [ArchiveData, hfail]
  have hcycle : archiveCycle rt w s = .ok ⟨s.db, s.counter + 1⟩ := by
    simp [archiveCycle, harch]
  refine ⟨harch, hcycle, (exportStep w ⟨s.db, s.counter + 1⟩).1,
    (exportStep w ⟨s.db, s.counter + 1⟩).2, by simp [tick, hcycle], ?_, ?_, ?_⟩
  · unfold exportStep
    split
    · split <;> rfl
    · rfl
  · intro h
    rw [exportStep_not_due w _ h]
    exact ⟨rfl, rfl⟩
  · intro h
    cases hexp : w.exportFails with
    | true => rw [exportStep_due_fail w _ h hexp]; exact ⟨rfl, rfl⟩
    | false => rw [exportStep_due_ok w _ h hexp]; exact ⟨rfl, rfl⟩

/-- C10 on a table of one row with counter 2 when the catalog request fails in
transport. -/
theorem C10_failed_ranking_skips_tick_witness :
    (GetAssetPairs plainRuntime downWorld).result = .error ∧
    tick plainRuntime downWorld ⟨[⟨"XBTUSD", 1, 1, 1, 1, 1, 1, "t0"⟩], 2⟩
      = .ok (⟨[⟨"XBTUSD", 1, 1, 1, 1, 1, 1, "t0"⟩], 3⟩, false) ∧
    ArchiveData plainRuntime downWorld [⟨"XBTUSD", 1, 1, 1, 1, 1, 1, "t0"⟩]
      = .ok [⟨"XBTUSD", 1, 1, 1, 1, 1, 1, "t0"⟩] :=
  ⟨by decide, by decide,
   (C10_failed_ranking_skips_tick plainRuntime downWorld
      ⟨[⟨"XBTUSD", 1, 1, 1, 1, 1, 1, "t0"⟩], 2⟩ (by decide)).1⟩

/-! ## C11: the archive pass -/

theorem insertCryptoData_eq_run (rt : GoRuntime) (w : World) (j : Nat) (pair : PairMapping)
    (t : TickerInfo) (db : DB) (a b c v h l : String)
    (ha : t.Ask[0]? = some a) (hb : t.Bid[0]? = some b) (hc : t.Last[0]? = some c)
    (hv : t.Volume[1]? = some v) (hh : t.High[0]? = some h) (hl : t.Low[0]? = some l) :
    InsertCryptoData db pair.AltName (rt.ParseFloat a) (rt.ParseFloat b) (rt.ParseFloat c)
        (rt.ParseFloat v) (rt.ParseFloat h) (rt.ParseFloat l) (w.now j)
      = (upsertOf rt w j pair t).run db := by
  simp [InsertCall.run, upsertOf, ha, hb, hc, hv, hh, hl]

/-- The archive loop, when it returns, has made the upserts of `archiveCalls`, in
order. -/
theorem archiveLoop_eq_runInserts (rt : GoRuntime) (w : World) :
    ∀ (pairs : List PairMapping) (j : Nat) (db db1 : DB),
      archiveLoop rt w j pairs db = .ok db1 →
      db1 = runInserts db (archiveCalls rt w j pairs) := by
  intro pairs
  induction pairs with
  | nil =>
    intro j db db1 h
    simp only [archiveLoop, Outcome.ok.injEq] at h
    simp [archiveCalls, runInserts, h]
  | cons pair rest ih =>
    intro j db db1 h
    rw [archiveLoop] at h
    rw [archiveCalls]
    cases hget : GetTicker rt w j pair.InternalName with
    | ok t =>
      simp only [hget] at h ⊢
      split at h
      · rename_i a b c v hh l ha hb hc hv hhh hl
        rw [insertCryptoData_eq_run rt w j pair t db a b c v hh l ha hb hc hv hhh hl] at h
        have := ih _ _ _ h
        simpa [runInserts] using this
      · cases h
    | error =>
      simp only [hget] at h ⊢
      exact ih _ _ _ h
    | panic => simp [hget] at h
    | outOfFuel => simp [hget] at h

theorem archiveLoop_returns (rt : GoRuntime) (w : World) :
    ∀ (pairs : List PairMapping) (j : Nat) (db : DB),
      w.PairFieldsPresent rt j pairs → ∃ db1, archiveLoop rt w j pairs db = .ok db1 := by
  intro pairs
  induction pairs with
  | nil => intro j db _; exact ⟨db, rfl⟩
  | cons pair rest ih =>
    intro j db hf
    have hrest : w.PairFieldsPresent rt (j + 1) rest := by
      intro i p t hp ht
      exact hf (i + 1) p t (by simpa using hp) (by rw [← ht]; congr 1; omega)
    rw [archiveLoop]
    cases hget : GetTicker rt w j pair.InternalName with
    | ok t =>
      obtain ⟨h1, h2, h3, h4, h5, h6⟩ := hf 0 pair t (by simp) (by simpa using hget)
      simp only [List.getElem?_eq_getElem h1, List.getElem?_eq_getElem h2,
        List.getElem?_eq_getElem h3, List.getElem?_eq_getElem h4,
        List.getElem?_eq_getElem h5, List.getElem?_eq_getElem h6]
      exact ih _ _ hrest
    | error => exact ih _ _ hrest
    | panic =>
      exfalso
      unfold GetTicker at hget
      split at hget
      · cases hget
      · cases hget
      · split at hget
        · cases hget
        · split at hget <;> cases hget
    | outOfFuel =>
      exfalso
      unfold GetTicker at hget
      split at hget
      · cases hget
      · cases hget
      · split at hget
        · cases hget
        · split at hget <;> cases hget

/-- The upserts are keyed by the display names of the instruments whose fetch
succeeded, in ranked order. -/
theorem archiveCalls_keys (rt : GoRuntime) (w : World) :
    ∀ (pairs : List PairMapping) (j : Nat),
      (archiveCalls rt w j pairs).map InsertCall.pair =
        ((pairs.enumFrom j).filter (fun jp => fetchSucceeds rt w jp.1 jp.2)).map
          (fun jp => jp.2.AltName) := by
  intro pairs
  induction pairs with
  | nil => intro j; rfl
  | cons pair rest ih =>
    intro j
    rw [archiveCalls, List.enumFrom_cons, List.filter_cons]
    cases hget : GetTicker rt w j pair.InternalName with
    | ok t => simp [fetchSucceeds, hget, ih, upsertOf]
    | error => simp [fetchSucceeds, hget, ih]
    | panic => simp [fetchSucceeds, hget, ih]
    | outOfFuel => simp [fetchSucceeds, hget, ih]

theorem archiveCalls_eq_filterMap (rt : GoRuntime) (w : World) :
    ∀ (pairs : List PairMapping) (j : Nat),
      archiveCalls rt w j pairs =
        (pairs.enumFrom j).filterMap (fun jp =>
          match GetTicker rt w jp.1 jp.2.InternalName with
          | .ok t => some (upsertOf rt w jp.1 jp.2 t)
          | _ => none) := by
  intro pairs
  induction pairs with
  | nil => intro j; rfl
  | cons pair rest ih =>
    intro j
    rw [archiveCalls, List.enumFrom_cons, List.filterMap_cons]
    cases hget : GetTicker rt w j pair.InternalName with
    | ok t => simp [hget, ih]
    | error => simp [hget, ih]
    | panic => simp [hget, ih]
    | outOfFuel => simp [hget, ih]

/-- C11. Given the ranked list, every archive pass that returns has made exactly
the upserts of the instruments whose `GetTicker` call succeeded, one each, in
ranked order, keyed by the display name (`AltName`) and carrying the values of
that instrument's ticker; an instrument whose call failed gets none and stops
nothing after it; rows of names not upserted stay in the table.  The pass returns
whenever the fetched tickers hold the entries it reads. -/
theorem C11_archive_upserts_fetched (rt : GoRuntime) (w : World) (pairs : List PairMapping)
    (db : DB) (hrank : (GetAssetPairs rt w).result = .ok pairs) :
    (∀ db1, ArchiveData rt w db = .ok db1 →
      db1 = runInserts db (archiveCalls rt w 0 pairs) ∧
      (∀ r ∈ db, r.pair ∉ (archiveCalls rt w 0 pairs).map InsertCall.pair → r ∈ db1) ∧
      (∀ before c after, archiveCalls rt w 0 pairs = before ++ c :: after →
        (∀ d ∈ after, d.pair ≠ c.pair) → c.row ∈ db1)) ∧
    archiveCalls rt w 0 pairs =
      (pairs.enumFrom 0).filterMap (fun jp =>
        match GetTicker rt w jp.1 jp.2.InternalName with
        | .ok t => some (upsertOf rt w jp.1 jp.2 t)
        | _ => none) ∧
    (archiveCalls rt w 0 pairs).map InsertCall.pair =
      ((pairs.enumFrom 0).filter (fun jp => fetchSucceeds rt w jp.1 jp.2)).map
        (fun jp => jp.2.AltName) ∧
    (w.PairFieldsPresent rt 0 pairs → ∃ db1, ArchiveData rt w db = .ok db1) := by
  have harch : ArchiveData rt w db = archiveLoop rt w 0 pairs db := by
    simp [ArchiveData, hrank]
  refine ⟨?_, archiveCalls_eq_filterMap rt w pairs 0, archiveCalls_keys rt w pairs 0, ?_⟩
  · intro db1 h
    rw [harch] at h
    have heq := archiveLoop_eq_runInserts rt w pairs 0 db db1 h
    subst heq
    refine ⟨rfl, ?_, ?_⟩
    · intro r hr hne
      apply other_mem_runInserts _ db r hr
      intro d hd e
      exact hne (e ▸ List.mem_map_of_mem _ hd)
    · intro before c after hcalls hlast
      rw [hcalls, runInserts_append]
      simp only [runInserts, List.foldl_cons]
      exact other_mem_runInserts after _ c.row (row_mem_insert _ c) hlast
  · intro hf
    rw [harch]
    exact archiveLoop_returns rt w pairs 0 db hf

theorem patchyWorld_ranking :
    (GetAssetPairs plainRuntime patchyWorld).result
      = .ok [⟨"XXBTZUSD", "XBTUSD", 900⟩, ⟨"XETHZUSD", "ETHUSD", 400⟩,
             ⟨"XLTCZUSD", "LTCUSD", 100⟩] := by decide

theorem patchyWorld_fields (pairs : List PairMapping) :
    patchyWorld.PairFieldsPresent plainRuntime 0 pairs := by
  intro i pair t _ ht
  unfold GetTicker at ht
  simp only [patchyWorld, plainRuntime] at ht
  by_cases hname : pair.InternalName = "XETHZUSD"
  · simp [hname] at ht
  · simp only [hname, if_false] at ht
    simp only [List.length_nil, gt_iff_lt, lt_self_iff_false, if_false,
      Outcome.ok.injEq] at ht
    subst ht
    decide

/-- C11 on the ranking XXBTZUSD, XETHZUSD, XLTCZUSD when the ticker request for
XETHZUSD fails: XBTUSD and LTCUSD are upserted in that order under their display
names, the row of ETHUSD stays as it was. -/
theorem C11_archive_upserts_fetched_witness :
    ArchiveData plainRuntime patchyWorld [⟨"ETHUSD", 9, 9, 9, 9, 9, 9, "old"⟩]
      = .ok [⟨"ETHUSD", 9, 9, 9, 9, 9, 9, "old"⟩,
             ⟨"XBTUSD", 3, 2, 2, 50, 4, 1, "2024-01-01T00:00:00Z"⟩,
             ⟨"LTCUSD", 3, 2, 2, 50, 4, 1, "2024-01-01T00:00:00Z"⟩] ∧
    (archiveCalls plainRuntime patchyWorld 0
        [⟨"XXBTZUSD", "XBTUSD", 900⟩, ⟨"XETHZUSD", "ETHUSD", 400⟩,
         ⟨"XLTCZUSD", "LTCUSD", 100⟩]).map InsertCall.pair = ["XBTUSD", "LTCUSD"] ∧
    ([⟨"ETHUSD", 9, 9, 9, 9, 9, 9, "old"⟩,
       ⟨"XBTUSD", 3, 2, 2, 50, 4, 1, "2024-01-01T00:00:00Z"⟩,
       ⟨"LTCUSD", 3, 2, 2, 50, 4, 1, "2024-01-01T00:00:00Z"⟩] : DB)
      = runInserts [⟨"ETHUSD", 9, 9, 9, 9, 9, 9, "old"⟩]
          (archiveCalls plainRuntime patchyWorld 0
            [⟨"XXBTZUSD", "XBTUSD", 900⟩, ⟨"XETHZUSD", "ETHUSD", 400⟩,
             ⟨"XLTCZUSD", "LTCUSD", 100⟩]) ∧
    (∃ db1, ArchiveData plainRuntime patchyWorld [⟨"ETHUSD", 9, 9, 9, 9, 9, 9, "old"⟩]
      = .ok db1) :=
  ⟨by decide, by decide,
   ((C11_archive_upserts_fetched plainRuntime patchyWorld
      [⟨"XXBTZUSD", "XBTUSD", 900⟩, ⟨"XETHZUSD", "ETHUSD", 400⟩,
       ⟨"XLTCZUSD", "LTCUSD", 100⟩]
      [⟨"ETHUSD", 9, 9, 9, 9, 9, 9, "old"⟩] patchyWorld_ranking).1 _ (by decide)).1,
   (C11_archive_upserts_fetched plainRuntime patchyWorld
      [⟨"XXBTZUSD", "XBTUSD", 900⟩, ⟨"XETHZUSD", "ETHUSD", 400⟩,
       ⟨"XLTCZUSD", "LTCUSD", 100⟩]
      [⟨"ETHUSD", 9, 9, 9, 9, 9, 9, "old"⟩] patchyWorld_ranking).2.2.2
      (patchyWorld_fields _)⟩

/-! ## C12: ticker fields are indexed without a length check -/

/-- C12, violated by the code. A decoded, error-free batch reply whose entry lacks
field `v` makes `GetTopVolumeAssetPairs` panic on `ticker.Volume[1]`, hence
`ArchiveData` and the tick; a single-instrument reply whose entry lacks field `a`
makes `ArchiveData` panic on `tickerInfo.Ask[0]` after a successful ranking.  The
loop dies instead of reading the missing field as zero. -/
theorem C12_missing_field_panics :
    (GetTopVolumeAssetPairs plainRuntime noVolumeWorld 20).result = .panic ∧
    ArchiveData plainRuntime noVolumeWorld [] = .panic ∧
    tick plainRuntime noVolumeWorld ⟨[], 0⟩ = .panic ∧
    (GetAssetPairs plainRuntime noAskWorld).result
      = .ok [⟨"B", "B", 200⟩, ⟨"A", "A", 50⟩, ⟨"C", "C", 10⟩] ∧
    ArchiveData plainRuntime noAskWorld [] = .panic ∧
    (ArchiveDataContinuously plainRuntime [] [.tickFired noAskWorld, .tickFired liveWorld]).phase
      = .crashed := by
  refine ⟨by decide, by decide, by decide, by decide, by decide, by decide⟩

/-! ## C13: the CSV file name -/

theorem pad2_eq_twoDigits : ∀ n, n < 100 → pad2 n = twoDigits n := by decide

/-- C13. For every calendar reading the generated name is `crypto_data_`, the day,
month, year, hour and minute field separated by underscores, then `.csv`, with
day, month, hour and minute field on exactly two digits; the minute field is the
largest multiple of 5 not above the minute `m` (one of 0, 5, ..., 55, at least
`m - 4`); two readings with the same day, month, year, hour and minute div 5 give
the same name; and the name of `ExportPairToCSV` is the pair name, an underscore,
and that name. -/
theorem C13_csv_filename (now : Clock) (hnow : now.Valid) :
    generateCSVFilename now =
      "crypto_data_" ++ twoDigits now.Day ++ "_" ++ twoDigits now.Month ++ "_"
        ++ Nat.repr now.Year ++ "_" ++ twoDigits now.Hour ++ "_"
        ++ twoDigits (5 * (now.Minute / 5)) ++ ".csv" ∧
    (5 * (now.Minute / 5)) % 5 = 0 ∧
    5 * (now.Minute / 5) ≤ now.Minute ∧
    now.Minute - 4 ≤ 5 * (now.Minute / 5) ∧
    5 * (now.Minute / 5) ≤ 55 ∧
    (∀ g, g % 5 = 0 → g ≤ now.Minute → g ≤ 5 * (now.Minute / 5)) ∧
    (∀ other : Clock, other.Day = now.Day → other.Month = now.Month →
      other.Year = now.Year → other.Hour = now.Hour →
      other.Minute / 5 = now.Minute / 5 →
      generateCSVFilename other = generateCSVFilename now) ∧
    (∀ (w : World) (db : DB) (pair : String), w.clock = now → w.exportFails = false →
      ExportAllPairsToSingleCSV w db = .ok (generateCSVFilename now) ∧
      ExportPairToCSV w db pair = .ok (pair ++ "_" ++ generateCSVFilename now)) := by
  obtain ⟨h1, h2, h3, h4, h5, h6⟩ := hnow
  refine ⟨?_, by omega, by omega, by omega, by omega, ?_, ?_, ?_⟩
  · unfold generateCSVFilename
    simp only
    rw [pad2_eq_twoDigits now.Day (by omega), pad2_eq_twoDigits now.Month (by omega),
      pad2_eq_twoDigits now.Hour (by omega),
      pad2_eq_twoDigits (now.Minute / 5 * 5) (by omega), Nat.mul_comm (now.Minute / 5) 5]
    rfl
  · intro g hg hle
    omega
  · intro other hd hmo hy hh hmin
    unfold generateCSVFilename
    rw [hd, hmo, hy, hh, hmin]
  · intro w db pair hclock hexp
    simp [ExportAllPairsToSingleCSV, ExportPairToCSV, hclock, hexp]

/-- C13 at 09:43 on 7 March 2024. -/
theorem C13_csv_filename_witness :
    (⟨2024, 3, 7, 9, 43⟩ : Clock).Valid ∧
    generateCSVFilename ⟨2024, 3, 7, 9, 43⟩ = "crypto_data_07_03_2024_09_40.csv" ∧
    generateCSVFilename ⟨2024, 3, 7, 9, 43⟩ =
      "crypto_data_" ++ twoDigits 7 ++ "_" ++ twoDigits 3 ++ "_"
        ++ Nat.repr 2024 ++ "_" ++ twoDigits 9 ++ "_"
        ++ twoDigits (5 * (43 / 5)) ++ ".csv" :=
  ⟨by decide, by decide, (C13_csv_filename ⟨2024, 3, 7, 9, 43⟩ (by decide)).1⟩

/-! ## C14: cancellation -/

theorem loop_returned_absorbs (rt : GoRuntime) (events : List Event) :
    ∀ st : Loop, st.phase = .returned → events.foldl (loopStep rt) st = st := by
  induction events with
  | nil => intro st _; rfl
  | cons e es ih =>
    intro st h
    have hstep : loopStep rt st e = st := by simp [loopStep, h]
    rw [List.foldl_cons, hstep]
    exact ih st h

theorem loop_ticks (rt : GoRuntime) (ws : List World) :
    ∀ (st : Loop) (s : Scheduler) (log : List Bool), st.phase = .running →
      runTicks rt ws st.sched = .ok (s, log) →
      (ws.map Event.tickFired).foldl (loopStep rt) st = ⟨.running, s, st.cycles ++ log⟩ := by
  induction ws with
  | nil =>
    intro st s log hph h
    simp only [runTicks, Outcome.ok.injEq, Prod.mk.injEq] at h
    obtain ⟨rfl, rfl⟩ := h
    cases st
    simp only at hph
    simp [hph]
  | cons w ws ih =>
    intro st s log hph h
    rw [runTicks] at h
    cases ht : tick rt w st.sched with
    | ok r =>
      obtain ⟨s1, exported⟩ := r
      simp only [ht] at h
      cases hr : runTicks rt ws s1 with
      | ok r2 =>
        obtain ⟨s2, l2⟩ := r2
        simp only [hr, Outcome.ok.injEq, Prod.mk.injEq] at h
        obtain ⟨rfl, rfl⟩ := h
        have hstep : loopStep rt st (.tickFired w) = ⟨.running, s1, st.cycles ++ [exported]⟩ := by
          simp [loopStep, hph, ht]
        rw [List.map_cons, List.foldl_cons, hstep,
          ih ⟨.running, s1, st.cycles ++ [exported]⟩ s2 l2 rfl hr]
        simp
      | error => simp [hr] at h
      | panic => simp [hr] at h
      | outOfFuel => simp [hr] at h
    | error => simp [ht] at h
    | panic => simp [ht] at h
    | outOfFuel => simp [ht] at h

/-- C14. In the loop driven by the events of its `select`: a tick whose archive pass
does not panic is one step that runs the whole pass (all upserts of the ranked
instruments), then `counter++` and the export block, and leaves the loop running;
when `stopChan` is observed by a running loop the loop returns with the table,
counter and cycle record it had, whatever events follow; a returned loop never
changes again.  So after any run of completed ticks followed by the cancellation,
the cycles run and the exports called are exactly those of the ticks before it. -/
theorem C14_cancellation_ends_loop (rt : GoRuntime) (db : DB) :
    (∀ (st : Loop) (w : World), st.phase = .running → w.ArchiveCompletes rt →
      ∃ db1, ArchiveData rt w st.sched.db = .ok db1 ∧
        (∀ pairs, (GetAssetPairs rt w).result = .ok pairs →
          db1 = runInserts st.sched.db (archiveCalls rt w 0 pairs)) ∧
        loopStep rt st (.tickFired w) =
          ⟨.running, (exportStep w ⟨db1, st.sched.counter + 1⟩).1,
            st.cycles ++ [(exportStep w ⟨db1, st.sched.counter + 1⟩).2]⟩) ∧
    (∀ before after : List Event,
      (ArchiveDataContinuously rt db before).phase = .running →
      ArchiveDataContinuously rt db (before ++ .stopClosed :: after) =
        { ArchiveDataContinuously rt db before with phase := .returned }) ∧
    (∀ (st : Loop) (events : List Event), st.phase = .returned →
      events.foldl (loopStep rt) st = st) ∧
    (∀ (ws : List World) (s : Scheduler) (log : List Bool) (after : List Event),
      runTicks rt ws ⟨db, 0⟩ = .ok (s, log) →
      ArchiveDataContinuously rt db (ws.map Event.tickFired) = ⟨.running, s, log⟩ ∧
      ArchiveDataContinuously rt db (ws.map Event.tickFired ++ .stopClosed :: after)
        = ⟨.returned, s, log⟩) := by
  have hcancel : ∀ (st : Loop) (after : List Event), st.phase = .running →
      (Event.stopClosed :: after).foldl (loopStep rt) st = { st with phase := .returned } := by
    intro st after hph
    have hstep : loopStep rt st .stopClosed = { st with phase := .returned } := by
      simp [loopStep, hph]
    rw [List.foldl_cons, hstep]
    exact loop_returned_absorbs rt after _ rfl
  refine ⟨?_, ?_, fun st events h => loop_returned_absorbs rt events st h, ?_⟩
  · intro st w hph hw
    obtain ⟨db1, harch, htick⟩ := tick_of_completes rt w hw st.sched
    refine ⟨db1, harch, ?_, ?_⟩
    · intro pairs hrank
      have h : archiveLoop rt w 0 pairs st.sched.db = .ok db1 := by
        rw [← harch]; simp [ArchiveData, hrank]
      exact archiveLoop_eq_runInserts rt w pairs 0 _ _ h
    · simp [loopStep, hph, htick]
  · intro before after hph
    unfold ArchiveDataContinuously at hph ⊢
    rw [List.foldl_append]
    exact hcancel _ after hph
  · intro ws s log after hrun
    have hticks := loop_ticks rt ws ⟨.running, ⟨db, 0⟩, []⟩ s log rfl hrun
    simp only [List.nil_append] at hticks
    refine ⟨hticks, ?_⟩
    unfold ArchiveDataContinuously
    rw [List.foldl_append, hticks]
    exact hcancel _ after rfl

theorem liveWorld_two_ticks :
    runTicks plainRuntime [liveWorld, liveWorld] ⟨[], 0⟩
      = .ok (⟨[⟨"B", 3, 2, 2, 50, 4, 1, "2024-01-01T00:00:00Z"⟩,
                ⟨"A", 3, 2, 2, 50, 4, 1, "2024-01-01T00:00:00Z"⟩,
                ⟨"C", 3, 2, 2, 50, 4, 1, "2024-01-01T00:00:00Z"⟩], 2⟩, [false, false]) := by
  decide

/-- C14 on two ticks, the cancellation, then two ticks that are never run: the
loop has returned with the table of the two ticks and counter 2. -/
theorem C14_cancellation_ends_loop_witness :
    ArchiveDataContinuously plainRuntime []
        ([liveWorld, liveWorld].map Event.tickFired
          ++ .stopClosed :: [.tickFired liveWorld, .tickFired liveWorld])
      = ⟨.returned,
          ⟨[⟨"B", 3, 2, 2, 50, 4, 1, "2024-01-01T00:00:00Z"⟩,
            ⟨"A", 3, 2, 2, 50, 4, 1, "2024-01-01T00:00:00Z"⟩,
            ⟨"C", 3, 2, 2, 50, 4, 1, "2024-01-01T00:00:00Z"⟩], 2⟩,
          [false, false]⟩ ∧
    (∃ db1, ArchiveData plainRuntime liveWorld [] = .ok db1 ∧
      (∀ pairs, (GetAssetPairs plainRuntime liveWorld).result = .ok pairs →
        db1 = runInserts [] (archiveCalls plainRuntime liveWorld 0 pairs)) ∧
      loopStep plainRuntime ⟨.running, ⟨[], 0⟩, []⟩ (.tickFired liveWorld) =
        ⟨.running, (exportStep liveWorld ⟨db1, 0 + 1⟩).1,
          [] ++ [(exportStep liveWorld ⟨db1, 0 + 1⟩).2]⟩) ∧
    ArchiveDataContinuously plainRuntime []
        ([.tickFired downWorld] ++ .stopClosed :: [.tickFired liveWorld])
      = { ArchiveDataContinuously plainRuntime [] [.tickFired downWorld] with
          phase := .returned } ∧
    [Event.tickFired liveWorld].foldl (loopStep plainRuntime) ⟨.returned, ⟨[], 3⟩, [false]⟩
      = ⟨.returned, ⟨[], 3⟩, [false]⟩ :=
  ⟨((C14_cancellation_ends_loop plainRuntime []).2.2.2 [liveWorld, liveWorld] _ _
      [.tickFired liveWorld, .tickFired liveWorld] liveWorld_two_ticks).2,
   (C14_cancellation_ends_loop plainRuntime []).1 ⟨.running, ⟨[], 0⟩, []⟩ liveWorld rfl
      liveWorld_completes,
   (C14_cancellation_ends_loop plainRuntime []).2.1 [.tickFired downWorld]
      [.tickFired liveWorld] (by decide),
   (C14_cancellation_ends_loop plainRuntime []).2.2.1 ⟨.returned, ⟨[], 3⟩, [false]⟩
      [.tickFired liveWorld] rfl⟩

end CryptoArchive
